import Mathlib

/-!
Shallow embedding of the `cache-demo` library: an in-process keyed cache
with two eviction engines (recency-based `lruCache`, expiration-based
`ttlCache`), a mode selector, and a locking facade with optional hooks.

Modelling conventions:
* Go `time.Time` / `UnixNano` instants and `time.Duration` are `Nat`
  (nanoseconds); each operation takes the current instant `now` explicitly
  (the Go code reads `time.Now()` internally).
* Go maps are association lists with map semantics: `aset` overwrites the
  binding of a present key, `adel` removes every binding of a key (a Go map
  holds at most one).  The LRU engine's `cache` map sends a key to a pointer
  to the list element holding that key, so it is modelled as the list of
  keys it binds; the pointer for `key` designates the (under the engine's
  invariant, unique) element of the sequence whose `key` field is `key`.
* Go's `container/list` doubly linked list is a `List` with front = head.
* `clear` sets the engine's maps to `nil` and the next `add` re-creates
  them; the pair of internal structures is therefore a single `Option`
  (the code checks only `c.cache == nil`, the structures go nil together).
-/

set_option linter.unusedSectionVars false
set_option linter.unnecessarySeqFocus false

namespace CacheDemo

variable {K : Type} {V : Type} [DecidableEq K]

/-- Lookup in a Go-map modelled as an association list (first binding wins;
map semantics keep at most one). -/
def alookup : List (K × V) → K → Option V
  | [], _ => none
  | (x, y) :: l, a => if x = a then some y else alookup l a

/-- Go map write `m[a] = b`: overwrite the binding of `a` if present,
otherwise append a new binding. -/
def aset : List (K × V) → K → V → List (K × V)
  | [], a, b => [(a, b)]
  | (x, y) :: l, a, b => if x = a then (a, b) :: l else (x, y) :: aset l a b

/-- Go map delete `delete(m, a)`: remove the binding(s) of `a`. -/
def adel : List (K × V) → K → List (K × V)
  | [], _ => []
  | (x, y) :: l, a => if x = a then adel l a else (x, y) :: adel l a

/-- The keys bound by a Go-map association list. -/
def keysOf (l : List (K × V)) : List K := l.map Prod.fst

/-- A Go map binds each key at most once. -/
@[reducible]
def NodupKeys (l : List (K × V)) : Prop := (keysOf l).Nodup


/-! ## The stored record

Go `entry` (`cache.go`): key, absolute expiry instant `ttl` (a
`time.Time`), and the opaque value.  Shared by both engines. -/

structure Entry (K V : Type) where
  key : K
  ttl : Nat
  value : V
  deriving DecidableEq, Repr

/-! ## Key-set helpers for the LRU engine's `cache` map

`lruCache.cache : map[Key]*list.Element` binds each key to the pointer of
the sequence element holding it; the pointer content is recovered from the
sequence, so the map is modelled by the list of keys it binds. -/

/-- Go `delete(c.cache, a)`. -/
def kdel (a : K) : List K → List K
  | [] => []
  | x :: l => if x = a then kdel a l else x :: kdel a l

/-- Remove the first element of the recency sequence whose key is `key`
(Go `c.ll.Remove(ele)` for the element `ele` that `c.cache[key]` points
at; under the engine's invariant that element is the unique one carrying
`key`, and it is the first). -/
def removeFirstKey (key : K) : List (Entry K V) → List (Entry K V)
  | [] => []
  | e :: es => if e.key = key then es else e :: removeFirstKey key es


/-! ## The recency engine (`lruCache`, part_000)

State: `maxEntries` (0 = unbounded), the configured `expiry` duration, and
the jointly-nil-able pair of sequence (`ll`, front = most recently used)
and key map (`cache`). -/

structure LruData (K V : Type) where
  ll : List (Entry K V)
  cache : List K
  deriving DecidableEq, Repr

structure lruCache (K V : Type) where
  maxEntries : Nat
  expiry : Nat
  data : Option (LruData K V)
  deriving DecidableEq, Repr

/-- Go `newLRU`. -/
def newLRU (maxEntries : Nat) (expiry : Nat) : lruCache K V :=
  ⟨maxEntries, expiry, some ⟨[], []⟩⟩

namespace lruCache

/-- Go `lruCache.add`: refresh-and-move-to-front an existing key, else
push a new entry at the front and, if bounded and over capacity, evict the
back-most element (`removeOldest`). -/
def add (c : lruCache K V) (now : Nat) (key : K) (value : V) : lruCache K V :=
  -- 1. a nil map is (re-)created empty
  let d := c.data.getD ⟨[], []⟩
  -- 2. existing key: move its element to the front, refresh ttl and value
  if key ∈ d.cache then
    match d.ll.find? (fun x => decide (x.key = key)) with
    | some ee =>
      { c with data := some ⟨⟨ee.key, now + c.expiry, value⟩ ::
          removeFirstKey key d.ll, d.cache⟩ }
    | none => { c with data := some d }
  else
    -- 3. push a fresh entry at the front and bind the key
    let ll' := ⟨key, now + c.expiry, value⟩ :: d.ll
    let cache' := key :: d.cache
    -- 4. over capacity: remove the back element and delete its key
    if c.maxEntries ≠ 0 ∧ ll'.length > c.maxEntries then
      match ll'.getLast? with
      | some last => { c with data := some ⟨ll'.dropLast, kdel last.key cache'⟩ }
      | none => { c with data := some ⟨ll', cache'⟩ }
    else
      { c with data := some ⟨ll', cache'⟩ }

/-- Go `lruCache.size`. -/
def size (c : lruCache K V) : Nat :=
  match c.data with
  | none => 0
  | some d => d.ll.length

/-- Go `lruCache.remove` followed by `removeElement`: drop the element the
map points at from the sequence and delete its key from the map. -/
def remove (c : lruCache K V) (key : K) : lruCache K V :=
  match c.data with
  | none => c
  | some d =>
    if key ∈ d.cache then
      { c with data := some ⟨removeFirstKey key d.ll, kdel key d.cache⟩ }
    else c

/-- Go `lruCache.get`: on a hit, lazily expire (and remove) a stale entry,
otherwise move the element to the front and return its value. -/
def get (c : lruCache K V) (now : Nat) (key : K) : Option V × lruCache K V :=
  match c.data with
  | none => (none, c)
  | some d =>
    if key ∈ d.cache then
      match d.ll.find? (fun x => decide (x.key = key)) with
      | some ele =>
        if ele.ttl < now then
          (none, c.remove key)
        else
          (some ele.value,
            { c with data := some ⟨ele :: removeFirstKey key d.ll, d.cache⟩ })
      | none => (none, c)
    else (none, c)

/-- Go `lruCache.clear`: both internal structures become nil. -/
def clear (c : lruCache K V) : lruCache K V :=
  { c with data := none }

end lruCache

/-! ## The expiration engine (`ttlCache`, part_001)

State: primary store `cache : map[Key]*entry` and secondary index
`expiration : map[int64]Key` from expiry instant (`UnixNano`) to key; the
two maps are jointly nil-able as in the LRU engine. -/

structure TtlData (K V : Type) where
  cache : List (K × Entry K V)
  expiration : List (Nat × K)
  deriving DecidableEq, Repr

structure ttlCache (K V : Type) where
  maxEntries : Nat
  updateAgeOnGet : Bool
  expiry : Nat
  data : Option (TtlData K V)
  deriving DecidableEq, Repr

/-- Go `newTTLCache`. -/
def newTTLCache (maxEntries : Nat) (expiry : Nat) (updateAgeOnGet : Bool) :
    ttlCache K V :=
  ⟨maxEntries, updateAgeOnGet, expiry, some ⟨[], []⟩⟩

namespace ttlCache

/-- Go `ttlCache.changeTTL`: delete the entry's old instant from the
index, set `ttl = now + expiry`, register the new instant. -/
def changeTTL (c : ttlCache K V) (now : Nat) (key : K) : ttlCache K V :=
  match c.data with
  | none => c
  | some d =>
    match alookup d.cache key with
    | none => c
    | some ee =>
      let d' : TtlData K V :=
        ⟨aset d.cache key ⟨ee.key, now + c.expiry, ee.value⟩,
         aset (adel d.expiration ee.ttl) (now + c.expiry) key⟩
      { c with data := some d' }

/-- Go `ttlCache.removeElement` applied to the entry stored under `key`
(`ttlCache.remove`): delete the index instant `e.ttl` and the primary
binding `e.key`. -/
def removeData (key : K) (d : TtlData K V) : TtlData K V :=
  match alookup d.cache key with
  | none => d
  | some e => ⟨adel d.cache e.key, adel d.expiration e.ttl⟩

/-- Go `ttlCache.remove`. -/
def remove (c : ttlCache K V) (key : K) : ttlCache K V :=
  match c.data with
  | none => c
  | some d => { c with data := some (removeData key d) }

/-- The loop body of Go `ttlCache.purgeToCapacity`: walk the sorted
instants; stop at the first instant that is in the future while the size
is already within budget, otherwise evict the key the index currently
registers at that instant (a missing instant yields the zero-value key,
which misses the primary store: a no-op). -/
def purgeLoop (maxE now : Nat) : List Nat → TtlData K V → TtlData K V
  | [], d => d
  | k :: ks, d =>
    if d.cache.length ≤ maxE ∧ now < k then d
    else
      purgeLoop maxE now ks
        (match alookup d.expiration k with
         | some key => removeData key d
         | none => d)

/-- Go `ttlCache.purgeToCapacity`: snapshot the registered instants,
sort ascending, walk. -/
def purgeToCapacity (maxE now : Nat) (d : TtlData K V) : TtlData K V :=
  purgeLoop maxE now (List.insertionSort (· ≤ ·) (keysOf d.expiration)) d

/-- Go `ttlCache.add`: an existing key gets its value overwritten and its
ttl refreshed (no capacity check); a new key is inserted into both maps
(the index write silently overwrites any key already registered at the
same instant) and, if bounded and over capacity, the purge runs. -/
def add (c : ttlCache K V) (now : Nat) (key : K) (value : V) : ttlCache K V :=
  -- 1. nil maps are (re-)created empty
  let d := c.data.getD ⟨[], []⟩
  match alookup d.cache key with
  | some ee =>
    -- 2. existing key: overwrite the value in place, then changeTTL
    changeTTL { c with data := some ⟨aset d.cache key ⟨ee.key, ee.ttl, value⟩,
      d.expiration⟩ } now key
  | none =>
    -- 3. fresh entry into the primary store and the index
    let e : Entry K V := ⟨key, now + c.expiry, value⟩
    let d' : TtlData K V :=
      ⟨aset d.cache key e, aset d.expiration (now + c.expiry) key⟩
    -- 4. over capacity: purge
    if c.maxEntries ≠ 0 ∧ d'.cache.length > c.maxEntries then
      { c with data := some (purgeToCapacity c.maxEntries now d') }
    else
      { c with data := some d' }

/-- Go `ttlCache.size`. -/
def size (c : ttlCache K V) : Nat :=
  match c.data with
  | none => 0
  | some d => d.cache.length

/-- Go `ttlCache.get`: lazily expire a stale hit; optionally refresh the
ttl of a fresh hit. -/
def get (c : ttlCache K V) (now : Nat) (key : K) : Option V × ttlCache K V :=
  match c.data with
  | none => (none, c)
  | some d =>
    match alookup d.cache key with
    | none => (none, c)
    | some ele =>
      if ele.ttl < now then
        (none, c.remove key)
      else if c.updateAgeOnGet then
        (some ele.value, c.changeTTL now key)
      else
        (some ele.value, c)

/-- Go `ttlCache.clear`. -/
def clear (c : ttlCache K V) : ttlCache K V :=
  { c with data := none }

end ttlCache

/-! ## Mode selector (`cache.go`)

`maxDuration` is the effectively-infinite expiry of the plain LRU mode;
`defaultDuration` is the literal `time.Duration(10)`, i.e. 10 nanoseconds
(its accompanying comment speaks of a 10 second default). -/

def maxDuration : Nat := 2 ^ 63 - 1

def defaultDuration : Nat := 10

structure CacheConfig where
  TTL : Nat
  MaxEntries : Nat
  deriving DecidableEq, Repr

namespace CacheConfig

/-- Go `CacheConfig.LRUCacheMode`. -/
def LRUCacheMode (cc : CacheConfig) : lruCache K V :=
  newLRU cc.MaxEntries maxDuration

/-- Go `CacheConfig.LRUWithTTLCacheMode`: a zero TTL is replaced by
`defaultDuration` (the config is mutated; the engine sees the resolved
duration). -/
def LRUWithTTLCacheMode (cc : CacheConfig) : lruCache K V :=
  newLRU cc.MaxEntries (if cc.TTL = 0 then defaultDuration else cc.TTL)

/-- Go `CacheConfig.TTLCacheMode`. -/
def TTLCacheMode (cc : CacheConfig) (updateAgeOnGet : Bool) : ttlCache K V :=
  newTTLCache cc.MaxEntries (if cc.TTL = 0 then defaultDuration else cc.TTL)
    updateAgeOnGet

end CacheConfig

/-! ## The facade (`Cache` in `cache.go`)

Every operation takes the single mutex, delegates to the engine through
the `ICache` interface, and dispatches the configured hook.  The mutual
exclusion itself is a concurrency property outside this embedding; what
is modelled is the sequence of observable actions each facade operation
performs while holding the lock, as an event trace.  Hooks are the
`ChangeCallbackFunc` implementation: a hook fires exactly when its
function field is non-nil (`set`), synchronously, with no arguments. -/

inductive FEvent where
  | hookAdd
  | hookGet
  | hookRemove
  | engineAdd
  | engineGet
  | engineRemove
  | engineClear
  deriving DecidableEq, Repr

/-- Which of the three `ChangeCallbackFunc` fields are non-nil. -/
structure ChangeCallbacks where
  onAddSet : Bool
  onGetSet : Bool
  onRemoveSet : Bool
  deriving DecidableEq, Repr

/-- The `ICache` interface: the five engine operations, as pure
state-passing functions over an engine state `S`. -/
structure ICache (S K V : Type) where
  add : S → Nat → K → V → S
  size : S → Nat
  get : S → Nat → K → Option V × S
  remove : S → K → S
  clear : S → S

/-- The LRU engine seen through `ICache`. -/
def lruICache : ICache (lruCache K V) K V :=
  ⟨lruCache.add, lruCache.size, lruCache.get, lruCache.remove, lruCache.clear⟩

/-- The TTL engine seen through `ICache`. -/
def ttlICache : ICache (ttlCache K V) K V :=
  ⟨ttlCache.add, ttlCache.size, ttlCache.get, ttlCache.remove, ttlCache.clear⟩

/-- The facade: one engine instance plus the configured callbacks. -/
structure Cache (S : Type) where
  engine : S
  callbacks : ChangeCallbacks

namespace Cache

/-- Go `Cache.Add`: lock, delegate, fire `OnAdd` if set. -/
def Add (E : ICache S K V) (c : Cache S) (now : Nat) (key : K) (value : V) :
    Cache S × List FEvent :=
  ({ c with engine := E.add c.engine now key value },
   [FEvent.engineAdd] ++ (if c.callbacks.onAddSet then [FEvent.hookAdd] else []))

/-- Go `Cache.Size`: lock, delegate. -/
def Size (E : ICache S K V) (c : Cache S) : Nat :=
  E.size c.engine

/-- Go `Cache.Get`: lock, fire `OnGet` if set, then delegate. -/
def Get (E : ICache S K V) (c : Cache S) (now : Nat) (key : K) :
    Option V × Cache S × List FEvent :=
  let r := E.get c.engine now key
  (r.1, { c with engine := r.2 },
   (if c.callbacks.onGetSet then [FEvent.hookGet] else []) ++ [FEvent.engineGet])

/-- Go `Cache.Remove`: lock, delegate, fire `OnRemove` if set. -/
def Remove (E : ICache S K V) (c : Cache S) (key : K) :
    Cache S × List FEvent :=
  ({ c with engine := E.remove c.engine key },
   [FEvent.engineRemove] ++
     (if c.callbacks.onRemoveSet then [FEvent.hookRemove] else []))

/-- Go `Cache.Clear`: lock, delegate.  No callback is consulted. -/
def Clear (E : ICache S K V) (c : Cache S) : Cache S × List FEvent :=
  ({ c with engine := E.clear c.engine }, [FEvent.engineClear])

end Cache

/-- An event is a hook invocation (as opposed to an engine delegation). -/
def FEvent.isHook : FEvent → Bool
  | .hookAdd => true
  | .hookGet => true
  | .hookRemove => true
  | _ => false

/-! ## Concrete scenario states

The spec's concrete test scenarios, with all inserts at instant 0 and a
duration long enough that nothing expires during the scenario. -/

/-- `maxEntries = 5`: insert keys 1..6 in order with no reads. -/
def lruScenario1 : lruCache Nat Nat :=
  ((((((newLRU 5 100).add 0 1 11).add 0 2 12).add 0 3 13).add 0 4 14).add
    0 5 15).add 0 6 16

/-- `maxEntries = 5`: insert keys 1..5, read key 1, insert key 6. -/
def lruScenario2 : lruCache Nat Nat :=
  ((((((((newLRU 5 100).add 0 1 11).add 0 2 12).add 0 3 13).add 0 4
    14).add 0 5 15).get 0 1).2).add 0 6 16

/-- Two TTL inserts during the same nanosecond (same `now`): both entries
receive the identical expiry instant, so the second index write replaces
the first key's registration. -/
def ttlCollisionScenario : ttlCache Nat Nat :=
  ((newTTLCache 0 10 false).add 0 1 21).add 0 2 22

/-! ## Structural invariants

These are the states the Go code can actually reach; the data-model
invariants of the spec are stated over them. -/

/-- LRU invariant: the key map binds each key once, and binds exactly the
keys of the sequence (each of which appears once, by the permutation with
a `Nodup` list). -/
@[reducible]
def LruData.WF (d : LruData K V) : Prop :=
  d.cache.Nodup ∧ d.cache.Perm (d.ll.map Entry.key)

/-- LRU engine invariant: the structures are well formed and, when
bounded, the sequence length is within `maxEntries`. -/
@[reducible]
def lruCache.WF (c : lruCache K V) : Prop :=
  match c.data with
  | none => True
  | some d => d.WF ∧ (c.maxEntries ≠ 0 → d.ll.length ≤ c.maxEntries)

/-- TTL invariant: both maps bind each key once; every stored entry
carries its own map key; every registered instant points at a live entry
whose `ttl` is that instant.  (The converse — every stored entry is
registered — can fail: an index write at an instant already registered
silently replaces the earlier key's registration, orphaning it.) -/
@[reducible]
def TtlData.WF (d : TtlData K V) : Prop :=
  NodupKeys d.cache ∧ NodupKeys d.expiration ∧
  (∀ p ∈ d.cache, (p.2).key = p.1) ∧
  (∀ q ∈ d.expiration, (alookup d.cache q.2).map Entry.ttl = some q.1)

/-- The orphan-free states: every stored entry is registered in the index
under its own expiry instant. -/
@[reducible]
def TtlData.fullyIndexed (d : TtlData K V) : Prop :=
  ∀ p ∈ d.cache, alookup d.expiration (p.2).ttl = some p.1

/-- TTL engine invariant. -/
@[reducible]
def ttlCache.WF (c : ttlCache K V) : Prop :=
  match c.data with
  | none => True
  | some d => d.WF

/-- Engine-level orphan-freedom: every stored entry is registered in the
secondary index under its own expiry instant (the existence direction of
the index invariant). -/
def ttlCache.fullyIndexed (c : ttlCache K V) : Prop :=
  match c.data with
  | none => True
  | some d => d.fullyIndexed

instance (c : lruCache K V) : Decidable c.WF := by
  unfold lruCache.WF
  cases c.data with
  | none => exact isTrue trivial
  | some d => exact instDecidableAnd

instance (c : ttlCache K V) : Decidable c.WF := by
  unfold ttlCache.WF
  cases c.data with
  | none => exact isTrue trivial
  | some d => exact instDecidableAnd

instance (c : ttlCache K V) : Decidable c.fullyIndexed := by
  unfold ttlCache.fullyIndexed
  cases c.data with
  | none => exact isTrue trivial
  | some d => exact List.decidableBAll _ _

/-! ## Lemma kit for the map and sequence helpers -/

@[simp] theorem alookup_nil (a : K) : alookup ([] : List (K × V)) a = none := rfl

@[simp] theorem alookup_cons (x : K) (y : V) (l : List (K × V)) (a : K) :
    alookup ((x, y) :: l) a = if x = a then some y else alookup l a := rfl

@[simp] theorem keysOf_nil : keysOf ([] : List (K × V)) = [] := rfl

@[simp] theorem keysOf_cons (x : K) (y : V) (l : List (K × V)) :
    keysOf ((x, y) :: l) = x :: keysOf l := rfl

theorem alookup_aset (l : List (K × V)) (a : K) (b : V) (x : K) :
    alookup (aset l a b) x = if a = x then some b else alookup l x := by
  induction l with
  | nil => simp [aset, alookup]
  | cons p l ih =>
    obtain ⟨px, py⟩ := p
    by_cases h : px = a
    · subst h
      by_cases h2 : px = x <;> simp [aset, alookup, h2]
    · by_cases h3 : px = x
      · subst h3
        have h4 : ¬a = px := fun h5 => h h5.symm
        simp [aset, alookup, h, h4]
      · simp [aset, alookup, h, h3, ih]

theorem alookup_adel (l : List (K × V)) (a : K) (x : K) :
    alookup (adel l a) x = if a = x then none else alookup l x := by
  induction l with
  | nil => simp [adel, alookup]
  | cons p l ih =>
    obtain ⟨px, py⟩ := p
    by_cases h : px = a
    · subst h
      by_cases h2 : px = x
      · subst h2; simp [adel, ih]
      · simp [adel, alookup, h2, ih]
    · by_cases h3 : px = x
      · subst h3
        have h4 : ¬a = px := fun h5 => h h5.symm
        simp [adel, alookup, h, h4]
      · simp [adel, alookup, h, h3, ih]

theorem mem_keysOf_of_alookup {l : List (K × V)} {a : K} {b : V}
    (h : alookup l a = some b) : a ∈ keysOf l := by
  induction l with
  | nil => simp [alookup] at h
  | cons p l ih =>
    obtain ⟨px, py⟩ := p
    by_cases h2 : px = a
    · subst h2; simp
    · simp only [alookup_cons, if_neg h2] at h
      exact List.mem_cons_of_mem _ (ih h)

theorem alookup_isSome_of_mem_keysOf {l : List (K × V)} {a : K}
    (h : a ∈ keysOf l) : ∃ b, alookup l a = some b := by
  induction l with
  | nil => simp at h
  | cons p l ih =>
    obtain ⟨px, py⟩ := p
    by_cases h2 : px = a
    · exact ⟨py, by simp [alookup, h2]⟩
    · have h4 : a ∈ keysOf l := by
        rcases List.mem_cons.mp (by simpa using h) with h5 | h5
        · exact absurd h5.symm h2
        · exact h5
      obtain ⟨b, hb⟩ := ih h4
      exact ⟨b, by simp [alookup, h2, hb]⟩

theorem length_adel_le (l : List (K × V)) (a : K) :
    (adel l a).length ≤ l.length := by
  induction l with
  | nil => simp [adel]
  | cons p l ih =>
    obtain ⟨px, py⟩ := p
    by_cases h2 : px = a <;> simp [adel, h2] <;> omega

theorem length_adel_lt {l : List (K × V)} {a : K} (h : a ∈ keysOf l) :
    (adel l a).length < l.length := by
  induction l with
  | nil => simp at h
  | cons p l ih =>
    obtain ⟨px, py⟩ := p
    by_cases h2 : px = a
    · subst h2
      have := length_adel_le l px
      simp [adel]
      omega
    · have h4 : a ∈ keysOf l := by
        rcases List.mem_cons.mp (by simpa using h) with h5 | h5
        · exact absurd h5.symm h2
        · exact h5
      have := ih h4
      simp [adel, h2]
      omega

@[simp] theorem kdel_nil (a : K) : kdel a ([] : List K) = [] := rfl

theorem mem_kdel {a x : K} {l : List K} : x ∈ kdel a l ↔ x ∈ l ∧ x ≠ a := by
  induction l with
  | nil => simp
  | cons y l ih =>
    by_cases h : y = a
    · subst h
      rw [kdel, if_pos rfl, ih]
      constructor
      · rintro ⟨h1, h2⟩
        exact ⟨List.mem_cons_of_mem _ h1, h2⟩
      · rintro ⟨h1, h2⟩
        rcases List.mem_cons.mp h1 with h3 | h3
        · exact absurd h3 h2
        · exact ⟨h3, h2⟩
    · rw [kdel, if_neg h]
      constructor
      · intro h1
        rcases List.mem_cons.mp h1 with h3 | h3
        · subst h3
          exact ⟨List.mem_cons_self _ _, fun h4 => h h4⟩
        · obtain ⟨h5, h6⟩ := ih.mp h3
          exact ⟨List.mem_cons_of_mem _ h5, h6⟩
      · rintro ⟨h1, h2⟩
        rcases List.mem_cons.mp h1 with h3 | h3
        · subst h3
          exact List.mem_cons_self _ _
        · exact List.mem_cons_of_mem _ (ih.mpr ⟨h3, h2⟩)

theorem nodup_kdel (a : K) {l : List K} (h : l.Nodup) : (kdel a l).Nodup := by
  induction l with
  | nil => simp [kdel]
  | cons y l ih =>
    obtain ⟨hy, hl⟩ := List.nodup_cons.mp h
    by_cases h2 : y = a
    · rw [kdel, if_pos h2]
      exact ih hl
    · rw [kdel, if_neg h2]
      exact List.nodup_cons.mpr ⟨fun hc => hy (mem_kdel.mp hc).1, ih hl⟩

theorem kdel_of_not_mem {a : K} {l : List K} (h : a ∉ l) : kdel a l = l := by
  induction l with
  | nil => rfl
  | cons y l ih =>
    simp only [List.mem_cons, not_or] at h
    rw [kdel, if_neg (fun h3 => h.1 h3.symm), ih h.2]

@[simp] theorem removeFirstKey_nil (key : K) :
    removeFirstKey key ([] : List (Entry K V)) = [] := rfl

theorem removeFirstKey_of_not_mem {key : K} {ll : List (Entry K V)}
    (h : key ∉ ll.map Entry.key) : removeFirstKey key ll = ll := by
  induction ll with
  | nil => rfl
  | cons e es ih =>
    simp only [List.map_cons, List.mem_cons, not_or] at h
    rw [removeFirstKey, if_neg (fun h2 => h.1 h2.symm), ih h.2]

theorem length_removeFirstKey_of_mem {key : K} {ll : List (Entry K V)}
    (h : key ∈ ll.map Entry.key) :
    (removeFirstKey key ll).length + 1 = ll.length := by
  induction ll with
  | nil => simp at h
  | cons e es ih =>
    by_cases h2 : e.key = key
    · simp [removeFirstKey, h2]
    · simp only [List.map_cons] at h
      rcases List.mem_cons.mp h with h4 | h4
      · exact absurd h4.symm h2
      · simp only [removeFirstKey, if_neg h2, List.length_cons, ih h4]

theorem keys_removeFirstKey_nodup {key : K} {ll : List (Entry K V)}
    (h : (ll.map Entry.key).Nodup) :
    (removeFirstKey key ll).map Entry.key = kdel key (ll.map Entry.key) := by
  induction ll with
  | nil => rfl
  | cons e es ih =>
    simp only [List.map_cons] at h
    obtain ⟨he, hes⟩ := List.nodup_cons.mp h
    by_cases h2 : e.key = key
    · subst h2
      rw [removeFirstKey, if_pos rfl, List.map_cons, kdel, if_pos rfl,
        kdel_of_not_mem he]
    · rw [removeFirstKey, if_neg h2, List.map_cons, List.map_cons, kdel,
        if_neg h2, ih hes]

theorem mem_map_key_removeFirstKey {key x : K} {ll : List (Entry K V)}
    (h : (ll.map Entry.key).Nodup) :
    (x ∈ (removeFirstKey key ll).map Entry.key) ↔
      x ∈ ll.map Entry.key ∧ x ≠ key := by
  rw [keys_removeFirstKey_nodup h]
  exact mem_kdel

theorem kdel_eq_filter (a : K) (l : List K) :
    kdel a l = l.filter (fun x => decide (x ≠ a)) := by
  induction l with
  | nil => rfl
  | cons y l ih =>
    by_cases h : y = a
    · simp [kdel, h, ih]
    · simp [kdel, h, ih]

theorem kdel_perm {l m : List K} (a : K) (h : l.Perm m) :
    (kdel a l).Perm (kdel a m) := by
  rw [kdel_eq_filter, kdel_eq_filter]
  exact h.filter _

theorem perm_cons_kdel {a : K} {l : List K} (hnd : l.Nodup) (hmem : a ∈ l) :
    l.Perm (a :: kdel a l) := by
  induction l with
  | nil => simp at hmem
  | cons y l ih =>
    obtain ⟨hy, hl⟩ := List.nodup_cons.mp hnd
    by_cases h : y = a
    · subst h
      rw [kdel, if_pos rfl, kdel_of_not_mem hy]
    · rcases List.mem_cons.mp hmem with h2 | h2
      · exact absurd h2.symm h
      · rw [kdel, if_neg h]
        exact ((ih hl h2).cons y).trans (List.Perm.swap a y _)

theorem length_removeFirstKey_le (key : K) (ll : List (Entry K V)) :
    (removeFirstKey key ll).length ≤ ll.length := by
  induction ll with
  | nil => simp
  | cons e es ih =>
    by_cases h : e.key = key <;> simp [removeFirstKey, h] <;> omega

theorem find?_key_eq {ll : List (Entry K V)} {key : K} {e : Entry K V}
    (h : ll.find? (fun x => decide (x.key = key)) = some e) : e.key = key := by
  have := List.find?_some h
  simpa using this

theorem find?_key_mem {ll : List (Entry K V)} {key : K} {e : Entry K V}
    (h : ll.find? (fun x => decide (x.key = key)) = some e) : e ∈ ll :=
  List.mem_of_find?_eq_some h

theorem find?_key_isSome {ll : List (Entry K V)} {key : K}
    (h : key ∈ ll.map Entry.key) :
    ∃ e, ll.find? (fun x => decide (x.key = key)) = some e := by
  obtain ⟨e, he, hk⟩ := List.mem_map.mp h
  cases hf : ll.find? (fun x => decide (x.key = key)) with
  | some e2 => exact ⟨e2, rfl⟩
  | none =>
    have := List.find?_eq_none.mp hf e he
    simp [hk] at this

/-! ## Characterizations of `lruCache.add` by branch -/

theorem lruCache.add_eq_existing {c : lruCache K V} {d : LruData K V}
    {key : K} {ee : Entry K V} (now : Nat) (value : V)
    (hd : c.data = some d) (hmem : key ∈ d.cache)
    (hfind : d.ll.find? (fun x => decide (x.key = key)) = some ee) :
    c.add now key value = { c with data := some ⟨⟨ee.key, now + c.expiry, value⟩ ::
      removeFirstKey key d.ll, d.cache⟩ } := by
  unfold lruCache.add
  rw [hd]
  simp only [Option.getD_some]
  rw [if_pos hmem, hfind]

theorem lruCache.add_eq_new_noevict {c : lruCache K V} {d : LruData K V}
    {key : K} (now : Nat) (value : V)
    (hd : c.data = some d) (hmem : key ∉ d.cache)
    (hcap : ¬(c.maxEntries ≠ 0 ∧ d.ll.length + 1 > c.maxEntries)) :
    c.add now key value = { c with data := some ⟨⟨key, now + c.expiry,
      value⟩ :: d.ll, key :: d.cache⟩ } := by
  unfold lruCache.add
  rw [hd]
  simp only [Option.getD_some]
  rw [if_neg hmem]
  simp only [List.length_cons]
  rw [if_neg hcap]

theorem lruCache.add_eq_new_evict {c : lruCache K V} {d : LruData K V}
    {key : K} {L : List (Entry K V)} {b : Entry K V} (now : Nat) (value : V)
    (hd : c.data = some d) (hmem : key ∉ d.cache) (hll : d.ll = L ++ [b])
    (hcap : c.maxEntries ≠ 0 ∧ d.ll.length + 1 > c.maxEntries) :
    c.add now key value = { c with data := some ⟨⟨key, now + c.expiry,
      value⟩ :: L, kdel b.key (key :: d.cache)⟩ } := by
  unfold lruCache.add
  rw [hd]
  simp only [Option.getD_some]
  rw [if_neg hmem]
  simp only [List.length_cons]
  rw [if_pos hcap, hll]
  have h1 : (⟨key, now + c.expiry, value⟩ : Entry K V) :: (L ++ [b]) =
      ((⟨key, now + c.expiry, value⟩ : Entry K V) :: L) ++ [b] := by
    simp
  rw [h1, List.getLast?_concat, List.dropLast_concat]

theorem lruCache.add_eq_nil {c : lruCache K V} {key : K} (now : Nat) (value : V)
    (hd : c.data = none) :
    c.add now key value = { c with data := some ⟨[⟨key, now + c.expiry,
      value⟩], [key]⟩ } := by
  unfold lruCache.add
  rw [hd]
  simp only [Option.getD_none]
  rw [if_neg (by simp)]
  simp only [List.length_cons, List.length_nil]
  rw [if_neg (by omega)]

/-! ## Characterizations of `lruCache.remove` and `lruCache.get` -/

theorem lruCache.remove_eq_nil {c : lruCache K V} {key : K}
    (hd : c.data = none) : c.remove key = c := by
  unfold lruCache.remove
  rw [hd]

theorem lruCache.remove_eq_absent {c : lruCache K V} {d : LruData K V} {key : K}
    (hd : c.data = some d) (hmem : key ∉ d.cache) : c.remove key = c := by
  unfold lruCache.remove
  rw [hd]
  simp only [if_neg hmem]

theorem lruCache.remove_eq_mem {c : lruCache K V} {d : LruData K V} {key : K}
    (hd : c.data = some d) (hmem : key ∈ d.cache) :
    c.remove key = { c with data := some ⟨removeFirstKey key d.ll,
      kdel key d.cache⟩ } := by
  unfold lruCache.remove
  rw [hd]
  simp only [if_pos hmem]

theorem lruCache.get_eq_nil {c : lruCache K V} {key : K} (now : Nat)
    (hd : c.data = none) : c.get now key = (none, c) := by
  unfold lruCache.get
  rw [hd]

theorem lruCache.get_eq_absent {c : lruCache K V} {d : LruData K V} {key : K}
    (now : Nat) (hd : c.data = some d) (hmem : key ∉ d.cache) :
    c.get now key = (none, c) := by
  unfold lruCache.get
  rw [hd]
  simp only [if_neg hmem]

theorem lruCache.get_eq_find_none {c : lruCache K V} {d : LruData K V} {key : K}
    (now : Nat) (hd : c.data = some d) (hmem : key ∈ d.cache)
    (hfind : d.ll.find? (fun x => decide (x.key = key)) = none) :
    c.get now key = (none, c) := by
  unfold lruCache.get
  rw [hd]
  simp only [if_pos hmem, hfind]

theorem lruCache.get_eq_expired {c : lruCache K V} {d : LruData K V} {key : K}
    {ele : Entry K V} (now : Nat) (hd : c.data = some d) (hmem : key ∈ d.cache)
    (hfind : d.ll.find? (fun x => decide (x.key = key)) = some ele)
    (hexp : ele.ttl < now) :
    c.get now key = (none, c.remove key) := by
  unfold lruCache.get
  rw [hd]
  simp only [if_pos hmem, hfind]
  rw [if_pos hexp]

theorem lruCache.get_eq_fresh {c : lruCache K V} {d : LruData K V} {key : K}
    {ele : Entry K V} (now : Nat) (hd : c.data = some d) (hmem : key ∈ d.cache)
    (hfind : d.ll.find? (fun x => decide (x.key = key)) = some ele)
    (hexp : ¬ele.ttl < now) :
    c.get now key = (some ele.value, { c with data := some ⟨ele ::
      removeFirstKey key d.ll, d.cache⟩ }) := by
  unfold lruCache.get
  rw [hd]
  simp only [if_pos hmem, hfind]
  rw [if_neg hexp]

/-! ## LRU invariant preservation -/

theorem lruWF_unfold {c : lruCache K V} {d : LruData K V} (h : c.WF)
    (hd : c.data = some d) :
    d.WF ∧ (c.maxEntries ≠ 0 → d.ll.length ≤ c.maxEntries) := by
  unfold lruCache.WF at h
  rw [hd] at h
  exact h

theorem lruWF_mk {c : lruCache K V} {d : LruData K V}
    (h1 : d.WF) (h2 : c.maxEntries ≠ 0 → d.ll.length ≤ c.maxEntries) :
    lruCache.WF { c with data := some d } := by
  unfold lruCache.WF
  exact ⟨h1, h2⟩

theorem lruWF_new (m e : Nat) : (newLRU m e : lruCache K V).WF := by
  unfold lruCache.WF newLRU
  simp [LruData.WF]

theorem lruWF_clear (c : lruCache K V) : c.clear.WF := by
  unfold lruCache.WF lruCache.clear
  trivial

theorem lruWF_add (c : lruCache K V) (now : Nat) (key : K) (value : V)
    (h : c.WF) : (c.add now key value).WF := by
  cases hd : c.data with
  | none =>
    rw [lruCache.add_eq_nil now value hd]
    exact lruWF_mk (by simp [LruData.WF]) (by simp; omega)
  | some d =>
    obtain ⟨⟨hnd, hperm⟩, hlen⟩ := lruWF_unfold h hd
    have hknd : (d.ll.map Entry.key).Nodup := (hperm.nodup_iff).mp hnd
    by_cases hmem : key ∈ d.cache
    · have hkey : key ∈ d.ll.map Entry.key := hperm.mem_iff.mp hmem
      obtain ⟨ee, hfind⟩ := find?_key_isSome hkey
      rw [lruCache.add_eq_existing now value hd hmem hfind]
      refine lruWF_mk ⟨hnd, ?_⟩ ?_
      · have hek : ee.key = key := find?_key_eq hfind
        rw [List.map_cons, keys_removeFirstKey_nodup hknd, hek]
        exact hperm.trans (perm_cons_kdel hknd hkey)
      · intro hm
        have := length_removeFirstKey_of_mem (V := V) hkey
        simp only [List.length_cons]
        omega
    · by_cases hcap : c.maxEntries ≠ 0 ∧ d.ll.length + 1 > c.maxEntries
      · have hlen2 : d.ll.length = c.maxEntries := by
          have := hlen hcap.1
          omega
        have hne : d.ll ≠ [] := by
          intro hnil
          rw [hnil] at hlen2
          exact hcap.1 hlen2.symm
        rcases List.eq_nil_or_concat d.ll with hnil | ⟨L, b, hll⟩
        · exact absurd hnil hne
        · rw [List.concat_eq_append] at hll
          rw [lruCache.add_eq_new_evict now value hd hmem hll hcap]
          have hkeys : d.ll.map Entry.key = L.map Entry.key ++ [b.key] := by
            rw [hll]
            simp
          have hknd2 : (L.map Entry.key ++ [b.key]).Nodup := by
            rw [← hkeys]
            exact hknd
          have hbL : b.key ∉ L.map Entry.key := by
            intro hc
            rcases List.nodup_append.mp hknd2 with ⟨-, -, hdis⟩
            exact hdis hc (by simp)
          have hkmem : key ∉ d.ll.map Entry.key := fun hc =>
            hmem (hperm.mem_iff.mpr hc)
          have hkb : key ≠ b.key := by
            intro hc
            rw [hkeys] at hkmem
            exact hkmem (by simp [hc])
          refine lruWF_mk ⟨?_, ?_⟩ ?_
          · exact nodup_kdel _ (List.nodup_cons.mpr ⟨hmem, hnd⟩)
          · have hp1 : (key :: d.cache).Perm (key :: d.ll.map Entry.key) :=
              hperm.cons key
            have hp2 := kdel_perm b.key hp1
            have he1 : kdel b.key (key :: d.ll.map Entry.key) =
                key :: L.map Entry.key := by
              rw [hkeys, kdel, if_neg hkb, kdel_eq_filter, List.filter_append,
                ← kdel_eq_filter, ← kdel_eq_filter, kdel_of_not_mem hbL, kdel,
                if_pos rfl, kdel_nil, List.append_nil]
            rw [he1] at hp2
            simpa using hp2
          · intro hm
            have : d.ll.length = L.length + 1 := by
              rw [hll]
              simp
            simp only [List.length_cons]
            omega
      · rw [lruCache.add_eq_new_noevict now value hd hmem hcap]
        refine lruWF_mk ⟨List.nodup_cons.mpr ⟨hmem, hnd⟩, ?_⟩ ?_
        · simpa using hperm.cons key
        · intro hm
          simp only [List.length_cons]
          omega

theorem lruWF_remove (c : lruCache K V) (key : K) (h : c.WF) :
    (c.remove key).WF := by
  cases hd : c.data with
  | none =>
    rw [lruCache.remove_eq_nil hd]
    exact h
  | some d =>
    obtain ⟨⟨hnd, hperm⟩, hlen⟩ := lruWF_unfold h hd
    have hknd : (d.ll.map Entry.key).Nodup := (hperm.nodup_iff).mp hnd
    by_cases hmem : key ∈ d.cache
    · rw [lruCache.remove_eq_mem hd hmem]
      refine lruWF_mk ⟨nodup_kdel _ hnd, ?_⟩ ?_
      · rw [keys_removeFirstKey_nodup hknd]
        exact kdel_perm key hperm
      · intro hm
        have := length_removeFirstKey_le key d.ll
        have := hlen hm
        dsimp only
        omega
    · rw [lruCache.remove_eq_absent hd hmem]
      exact h

theorem lruWF_get (c : lruCache K V) (now : Nat) (key : K) (h : c.WF) :
    (c.get now key).2.WF := by
  cases hd : c.data with
  | none =>
    rw [lruCache.get_eq_nil now hd]
    exact h
  | some d =>
    obtain ⟨⟨hnd, hperm⟩, hlen⟩ := lruWF_unfold h hd
    have hknd : (d.ll.map Entry.key).Nodup := (hperm.nodup_iff).mp hnd
    by_cases hmem : key ∈ d.cache
    · obtain ⟨ele, hfind⟩ := find?_key_isSome (hperm.mem_iff.mp hmem)
      by_cases hexp : ele.ttl < now
      · rw [lruCache.get_eq_expired now hd hmem hfind hexp]
        exact lruWF_remove c key h
      · rw [lruCache.get_eq_fresh now hd hmem hfind hexp]
        refine lruWF_mk ⟨hnd, ?_⟩ ?_
        · have hek : ele.key = key := find?_key_eq hfind
          rw [List.map_cons, keys_removeFirstKey_nodup hknd, hek]
          exact hperm.trans (perm_cons_kdel hknd (hperm.mem_iff.mp hmem))
        · intro hm
          have := length_removeFirstKey_of_mem (V := V) (hperm.mem_iff.mp hmem)
          simp only [List.length_cons]
          omega
    · rw [lruCache.get_eq_absent now hd hmem]
      exact h

/-! ## Pair-level lemmas for the TTL engine's maps -/

theorem mem_adel {l : List (K × V)} {a : K} {q : K × V} :
    q ∈ adel l a ↔ q ∈ l ∧ q.1 ≠ a := by
  induction l with
  | nil => simp [adel]
  | cons p l ih =>
    obtain ⟨px, py⟩ := p
    by_cases h : px = a
    · subst h
      rw [adel, if_pos rfl, ih]
      constructor
      · rintro ⟨h1, h2⟩
        exact ⟨List.mem_cons_of_mem _ h1, h2⟩
      · rintro ⟨h1, h2⟩
        rcases List.mem_cons.mp h1 with h3 | h3
        · subst h3
          exact absurd rfl h2
        · exact ⟨h3, h2⟩
    · rw [adel, if_neg h]
      constructor
      · intro h1
        rcases List.mem_cons.mp h1 with h3 | h3
        · subst h3
          exact ⟨List.mem_cons_self _ _, h⟩
        · obtain ⟨h5, h6⟩ := ih.mp h3
          exact ⟨List.mem_cons_of_mem _ h5, h6⟩
      · rintro ⟨h1, h2⟩
        rcases List.mem_cons.mp h1 with h3 | h3
        · subst h3
          exact List.mem_cons_self _ _
        · exact List.mem_cons_of_mem _ (ih.mpr ⟨h3, h2⟩)

theorem fst_mem_keysOf {l : List (K × V)} {q : K × V} (h : q ∈ l) :
    q.1 ∈ keysOf l :=
  List.mem_map_of_mem Prod.fst h

theorem mem_aset {l : List (K × V)} {a : K} {b : V} {q : K × V}
    (hnd : NodupKeys l) :
    q ∈ aset l a b → q = (a, b) ∨ (q ∈ l ∧ q.1 ≠ a) := by
  induction l with
  | nil =>
    intro h
    exact Or.inl (List.mem_singleton.mp (by simpa [aset] using h))
  | cons p l ih =>
    obtain ⟨px, py⟩ := p
    have hnd2 : px ∉ keysOf l ∧ NodupKeys l := by
      simpa [NodupKeys] using hnd
    intro h
    by_cases h2 : px = a
    · subst h2
      rw [aset, if_pos rfl] at h
      rcases List.mem_cons.mp h with h3 | h3
      · exact Or.inl h3
      · refine Or.inr ⟨List.mem_cons_of_mem _ h3, fun h4 => ?_⟩
        exact hnd2.1 (h4 ▸ fst_mem_keysOf h3)
    · rw [aset, if_neg h2] at h
      rcases List.mem_cons.mp h with h3 | h3
      · subst h3
        exact Or.inr ⟨List.mem_cons_self _ _, h2⟩
      · rcases ih hnd2.2 h3 with h4 | h4
        · exact Or.inl h4
        · exact Or.inr ⟨List.mem_cons_of_mem _ h4.1, h4.2⟩

theorem mem_keysOf_aset {l : List (K × V)} {a x : K} {b : V} :
    x ∈ keysOf (aset l a b) ↔ x = a ∨ x ∈ keysOf l := by
  induction l with
  | nil => simp [aset, keysOf, eq_comm]
  | cons p l ih =>
    obtain ⟨px, py⟩ := p
    by_cases h : px = a
    · subst h
      rw [aset, if_pos rfl]
      simp [eq_comm]
    · rw [aset, if_neg h]
      simp only [keysOf_cons, List.mem_cons, ih]
      tauto

theorem nodupKeys_aset {l : List (K × V)} (a : K) (b : V)
    (hnd : NodupKeys l) : NodupKeys (aset l a b) := by
  induction l with
  | nil => simp [aset, NodupKeys, keysOf]
  | cons p l ih =>
    obtain ⟨px, py⟩ := p
    have hnd2 : px ∉ keysOf l ∧ NodupKeys l := by
      simpa [NodupKeys] using hnd
    by_cases h : px = a
    · subst h
      rw [aset, if_pos rfl]
      simpa [NodupKeys] using hnd2
    · rw [aset, if_neg h]
      refine List.nodup_cons.mpr ⟨?_, ih hnd2.2⟩
      intro hc
      rcases mem_keysOf_aset.mp hc with h2 | h2
      · exact h h2
      · exact hnd2.1 h2

theorem keysOf_adel (l : List (K × V)) (a : K) :
    keysOf (adel l a) = kdel a (keysOf l) := by
  induction l with
  | nil => rfl
  | cons p l ih =>
    obtain ⟨px, py⟩ := p
    by_cases h : px = a
    · rw [adel, if_pos h, keysOf_cons, kdel, if_pos h, ih]
    · rw [adel, if_neg h, keysOf_cons, keysOf_cons, kdel, if_neg h, ih]

theorem nodupKeys_adel {l : List (K × V)} (a : K)
    (hnd : NodupKeys l) : NodupKeys (adel l a) := by
  unfold NodupKeys
  rw [keysOf_adel]
  exact nodup_kdel a hnd

theorem aset_ne_nil (l : List (K × V)) (a : K) (b : V) : aset l a b ≠ [] := by
  cases l with
  | nil => simp [aset]
  | cons p l =>
    obtain ⟨px, py⟩ := p
    by_cases h : px = a
    · rw [aset, if_pos h]
      simp
    · rw [aset, if_neg h]
      simp

theorem length_aset_of_mem {l : List (K × V)} {a : K} (b : V)
    (h : a ∈ keysOf l) : (aset l a b).length = l.length := by
  induction l with
  | nil => simp at h
  | cons p l ih =>
    obtain ⟨px, py⟩ := p
    by_cases h2 : px = a
    · rw [aset, if_pos h2]
      simp
    · have h3 : a ∈ keysOf l := by
        rcases List.mem_cons.mp (by simpa using h) with h4 | h4
        · exact absurd h4.symm h2
        · exact h4
      rw [aset, if_neg h2]
      simp [ih h3]

theorem length_aset_of_not_mem {l : List (K × V)} {a : K} (b : V)
    (h : a ∉ keysOf l) : (aset l a b).length = l.length + 1 := by
  induction l with
  | nil => simp [aset]
  | cons p l ih =>
    obtain ⟨px, py⟩ := p
    simp only [keysOf_cons, List.mem_cons, not_or] at h
    rw [aset, if_neg (fun h2 => h.1 h2.symm)]
    simp [ih h.2]

theorem mem_of_alookup_eq_some {l : List (K × V)} {a : K} {b : V}
    (h : alookup l a = some b) : (a, b) ∈ l := by
  induction l with
  | nil => simp [alookup] at h
  | cons p l ih =>
    obtain ⟨px, py⟩ := p
    by_cases h2 : px = a
    · subst h2
      rw [alookup_cons, if_pos rfl] at h
      simp only [Option.some.injEq] at h
      subst h
      exact List.mem_cons_self _ _
    · rw [alookup_cons, if_neg h2] at h
      exact List.mem_cons_of_mem _ (ih h)

theorem alookup_eq_some_of_mem {l : List (K × V)} {a : K} {b : V}
    (hnd : NodupKeys l) (h : (a, b) ∈ l) : alookup l a = some b := by
  induction l with
  | nil => simp at h
  | cons p l ih =>
    obtain ⟨px, py⟩ := p
    have hnd2 : px ∉ keysOf l ∧ NodupKeys l := by
      simpa [NodupKeys] using hnd
    rcases List.mem_cons.mp h with h2 | h2
    · rw [show px = a from congrArg Prod.fst h2.symm, alookup_cons, if_pos rfl]
      exact congrArg (some ∘ Prod.snd) h2.symm
    · have h3 : px ≠ a := by
        intro h4
        exact hnd2.1 (h4 ▸ fst_mem_keysOf h2)
      rw [alookup_cons, if_neg h3]
      exact ih hnd2.2 h2

theorem alookup_eq_none_iff {l : List (K × V)} {a : K} :
    alookup l a = none ↔ a ∉ keysOf l := by
  constructor
  · intro h hc
    obtain ⟨b, hb⟩ := alookup_isSome_of_mem_keysOf hc
    rw [h] at hb
    exact Option.noConfusion hb
  · intro h
    cases hb : alookup l a with
    | none => rfl
    | some b => exact absurd (mem_keysOf_of_alookup hb) h

/-! ## Characterizations of the TTL operations by branch -/

theorem ttlChangeTTL_eq_nil {c : ttlCache K V} {key : K} (now : Nat)
    (hd : c.data = none) : c.changeTTL now key = c := by
  unfold ttlCache.changeTTL
  rw [hd]

theorem ttlChangeTTL_eq_absent {c : ttlCache K V} {d : TtlData K V}
    {key : K} (now : Nat) (hd : c.data = some d)
    (hlook : alookup d.cache key = none) : c.changeTTL now key = c := by
  unfold ttlCache.changeTTL
  rw [hd]
  simp only [hlook]

theorem ttlChangeTTL_eq_mem {c : ttlCache K V} {d : TtlData K V}
    {key : K} {ee : Entry K V} (now : Nat) (hd : c.data = some d)
    (hlook : alookup d.cache key = some ee) :
    c.changeTTL now key = { c with data := some ⟨aset d.cache key ⟨ee.key,
      now + c.expiry, ee.value⟩,
      aset (adel d.expiration ee.ttl) (now + c.expiry) key⟩ } := by
  unfold ttlCache.changeTTL
  rw [hd]
  simp only [hlook]

theorem ttlRemove_eq_nil {c : ttlCache K V} {key : K}
    (hd : c.data = none) : c.remove key = c := by
  unfold ttlCache.remove
  rw [hd]

theorem ttlRemove_eq_data {c : ttlCache K V} {d : TtlData K V} {key : K}
    (hd : c.data = some d) :
    c.remove key = { c with data := some (ttlCache.removeData key d) } := by
  unfold ttlCache.remove
  rw [hd]

theorem ttlAdd_eq_nil {c : ttlCache K V} {key : K} (now : Nat) (value : V)
    (hd : c.data = none) :
    c.add now key value = { c with data := some ⟨[(key, ⟨key, now + c.expiry,
      value⟩)], [(now + c.expiry, key)]⟩ } := by
  unfold ttlCache.add
  rw [hd]
  simp only [Option.getD_none, alookup_nil, aset]
  rw [if_neg (by simp)]

theorem ttlAdd_eq_existing {c : ttlCache K V} {d : TtlData K V}
    {key : K} {ee : Entry K V} (now : Nat) (value : V) (hd : c.data = some d)
    (hlook : alookup d.cache key = some ee) :
    c.add now key value = ttlCache.changeTTL { c with data := some ⟨aset
      d.cache key ⟨ee.key, ee.ttl, value⟩, d.expiration⟩ } now key := by
  unfold ttlCache.add
  rw [hd]
  simp only [Option.getD_some]
  rw [hlook]

theorem ttlAdd_eq_new_nopurge {c : ttlCache K V} {d : TtlData K V}
    {key : K} (now : Nat) (value : V) (hd : c.data = some d)
    (hlook : alookup d.cache key = none)
    (hcap : ¬(c.maxEntries ≠ 0 ∧ d.cache.length + 1 > c.maxEntries)) :
    c.add now key value = { c with data := some ⟨aset d.cache key ⟨key,
      now + c.expiry, value⟩, aset d.expiration (now + c.expiry) key⟩ } := by
  unfold ttlCache.add
  rw [hd]
  simp only [Option.getD_some]
  rw [hlook]
  have hlen : (aset d.cache key (⟨key, now + c.expiry, value⟩ : Entry K V)).length
      = d.cache.length + 1 :=
    length_aset_of_not_mem _ (alookup_eq_none_iff.mp hlook)
  rw [if_neg (by rw [hlen]; exact hcap)]

theorem ttlAdd_eq_new_purge {c : ttlCache K V} {d : TtlData K V}
    {key : K} (now : Nat) (value : V) (hd : c.data = some d)
    (hlook : alookup d.cache key = none)
    (hcap : c.maxEntries ≠ 0 ∧ d.cache.length + 1 > c.maxEntries) :
    c.add now key value = { c with data := some (ttlCache.purgeToCapacity
      c.maxEntries now ⟨aset d.cache key ⟨key, now + c.expiry, value⟩,
      aset d.expiration (now + c.expiry) key⟩) } := by
  unfold ttlCache.add
  rw [hd]
  simp only [Option.getD_some]
  rw [hlook]
  have hlen : (aset d.cache key (⟨key, now + c.expiry, value⟩ : Entry K V)).length
      = d.cache.length + 1 :=
    length_aset_of_not_mem _ (alookup_eq_none_iff.mp hlook)
  rw [if_pos (by rw [hlen]; exact hcap)]

theorem ttlGet_eq_nil {c : ttlCache K V} {key : K} (now : Nat)
    (hd : c.data = none) : c.get now key = (none, c) := by
  unfold ttlCache.get
  rw [hd]

theorem ttlGet_eq_absent {c : ttlCache K V} {d : TtlData K V} {key : K}
    (now : Nat) (hd : c.data = some d) (hlook : alookup d.cache key = none) :
    c.get now key = (none, c) := by
  unfold ttlCache.get
  rw [hd]
  simp only [hlook]

theorem ttlGet_eq_expired {c : ttlCache K V} {d : TtlData K V} {key : K}
    {ele : Entry K V} (now : Nat) (hd : c.data = some d)
    (hlook : alookup d.cache key = some ele) (hexp : ele.ttl < now) :
    c.get now key = (none, c.remove key) := by
  unfold ttlCache.get
  rw [hd]
  simp only [hlook]
  rw [if_pos hexp]

theorem ttlGet_eq_fresh_update {c : ttlCache K V} {d : TtlData K V}
    {key : K} {ele : Entry K V} (now : Nat) (hd : c.data = some d)
    (hlook : alookup d.cache key = some ele) (hexp : ¬ele.ttl < now)
    (hupd : c.updateAgeOnGet = true) :
    c.get now key = (some ele.value, c.changeTTL now key) := by
  unfold ttlCache.get
  rw [hd]
  simp only [hlook]
  rw [if_neg hexp, if_pos hupd]

theorem ttlGet_eq_fresh {c : ttlCache K V} {d : TtlData K V}
    {key : K} {ele : Entry K V} (now : Nat) (hd : c.data = some d)
    (hlook : alookup d.cache key = some ele) (hexp : ¬ele.ttl < now)
    (hupd : c.updateAgeOnGet = false) :
    c.get now key = (some ele.value, c) := by
  unfold ttlCache.get
  rw [hd]
  simp only [hlook]
  rw [if_neg hexp, if_neg (by rw [hupd]; exact Bool.false_ne_true)]

/-! ## TTL invariant preservation -/

theorem ttlWF_unfold {c : ttlCache K V} {d : TtlData K V} (h : c.WF)
    (hd : c.data = some d) : d.WF := by
  unfold ttlCache.WF at h
  rw [hd] at h
  exact h

theorem ttlWF_mk {c : ttlCache K V} {d : TtlData K V} (h : d.WF) :
    ttlCache.WF { c with data := some d } := by
  unfold ttlCache.WF
  exact h

theorem entry_of_reg {d : TtlData K V} {i : Nat} {k : K} (h : d.WF)
    (hreg : alookup d.expiration i = some k) :
    ∃ e, alookup d.cache k = some e ∧ e.ttl = i := by
  have h4 := h.2.2.2 (i, k) (mem_of_alookup_eq_some hreg)
  exact Option.map_eq_some'.mp h4

theorem key_of_lookup {d : TtlData K V} {k : K} {e : Entry K V} (h : d.WF)
    (hlook : alookup d.cache k = some e) : e.key = k :=
  h.2.2.1 (k, e) (mem_of_alookup_eq_some hlook)

theorem ttlWF_data_removeData (key : K) {d : TtlData K V} (h : d.WF) :
    (ttlCache.removeData key d).WF := by
  unfold ttlCache.removeData
  cases hlook : alookup d.cache key with
  | none => exact h
  | some e =>
    obtain ⟨W1, W2, W3, W4⟩ := h
    have hek : e.key = key := W3 (key, e) (mem_of_alookup_eq_some hlook)
    refine ⟨nodupKeys_adel _ W1, nodupKeys_adel _ W2, ?_, ?_⟩
    · intro p hp
      exact W3 p (mem_adel.mp hp).1
    · intro q hq
      obtain ⟨hq1, hq2⟩ := mem_adel.mp hq
      have hW4 := W4 q hq1
      obtain ⟨e2, he2, he2t⟩ := Option.map_eq_some'.mp hW4
      have hq2k : q.2 ≠ e.key := by
        intro hc
        rw [hc, hek, hlook] at he2
        cases he2
        exact hq2 he2t.symm
      rw [alookup_adel, if_neg (fun hc => hq2k hc.symm)]
      exact hW4

theorem ttlWF_remove (c : ttlCache K V) (key : K) (h : c.WF) :
    (c.remove key).WF := by
  cases hd : c.data with
  | none =>
    rw [ttlRemove_eq_nil hd]
    exact h
  | some d =>
    rw [ttlRemove_eq_data hd]
    exact ttlWF_mk (ttlWF_data_removeData key (ttlWF_unfold h hd))

theorem ttlWF_changeTTL (c : ttlCache K V) (now : Nat) (key : K) (h : c.WF) :
    (c.changeTTL now key).WF := by
  cases hd : c.data with
  | none =>
    rw [ttlChangeTTL_eq_nil now hd]
    exact h
  | some d =>
    have hdWF := ttlWF_unfold h hd
    cases hlook : alookup d.cache key with
    | none =>
      rw [ttlChangeTTL_eq_absent now hd hlook]
      exact h
    | some ee =>
      rw [ttlChangeTTL_eq_mem now hd hlook]
      obtain ⟨W1, W2, W3, W4⟩ := hdWF
      have hek : ee.key = key := W3 (key, ee) (mem_of_alookup_eq_some hlook)
      refine ttlWF_mk ⟨nodupKeys_aset _ _ W1,
        nodupKeys_aset _ _ (nodupKeys_adel _ W2), ?_, ?_⟩
      · intro p hp
        rcases mem_aset W1 hp with h2 | h2
        · rw [h2]
          exact hek
        · exact W3 p h2.1
      · intro q hq
        rcases mem_aset (nodupKeys_adel _ W2) hq with h2 | h2
        · rw [h2]
          rw [alookup_aset, if_pos rfl]
          rfl
        · obtain ⟨h3, h4⟩ := mem_adel.mp h2.1
          have hW4 := W4 q h3
          obtain ⟨e2, he2, he2t⟩ := Option.map_eq_some'.mp hW4
          have hq2k : q.2 ≠ key := by
            intro hc
            rw [hc, hlook] at he2
            cases he2
            exact h4 he2t.symm
          rw [alookup_aset, if_neg (fun hc => hq2k hc.symm)]
          exact hW4

theorem ttlWF_purgeLoop (maxE now : Nat) (ks : List Nat) {d : TtlData K V}
    (h : d.WF) : (ttlCache.purgeLoop maxE now ks d).WF := by
  induction ks generalizing d with
  | nil => exact h
  | cons k ks ih =>
    simp only [ttlCache.purgeLoop]
    by_cases hc : d.cache.length ≤ maxE ∧ now < k
    · rw [if_pos hc]
      exact h
    · rw [if_neg hc]
      apply ih
      cases hlook : alookup d.expiration k with
      | none => exact h
      | some key => exact ttlWF_data_removeData key h

theorem ttlWF_purge (maxE now : Nat) {d : TtlData K V} (h : d.WF) :
    (ttlCache.purgeToCapacity maxE now d).WF :=
  ttlWF_purgeLoop maxE now _ h

theorem ttlWF_data_insert_new {d : TtlData K V} {key : K} (T : Nat) (value : V)
    (h : d.WF) (hlook : alookup d.cache key = none) :
    TtlData.WF (⟨aset d.cache key ⟨key, T, value⟩,
      aset d.expiration T key⟩ : TtlData K V) := by
  obtain ⟨W1, W2, W3, W4⟩ := h
  refine ⟨nodupKeys_aset _ _ W1, nodupKeys_aset _ _ W2, ?_, ?_⟩
  · intro p hp
    rcases mem_aset W1 hp with h2 | h2
    · rw [h2]
    · exact W3 p h2.1
  · intro q hq
    rcases mem_aset W2 hq with h2 | h2
    · rw [h2]
      rw [alookup_aset, if_pos rfl]
      rfl
    · have hW4 := W4 q h2.1
      have hq2k : q.2 ≠ key := by
        intro hc
        rw [hc, hlook] at hW4
        cases hW4
      rw [alookup_aset, if_neg (fun hc => hq2k hc.symm)]
      exact hW4

theorem ttlWF_add (c : ttlCache K V) (now : Nat) (key : K) (value : V)
    (h : c.WF) : (c.add now key value).WF := by
  cases hd : c.data with
  | none =>
    rw [ttlAdd_eq_nil now value hd]
    refine ttlWF_mk ⟨?_, ?_, ?_, ?_⟩
    · simp [NodupKeys, keysOf]
    · simp [NodupKeys, keysOf]
    · intro p hp
      rw [List.mem_singleton.mp hp]
    · intro q hq
      rw [List.mem_singleton.mp hq]
      rw [alookup_cons, if_pos rfl]
      rfl
  | some d =>
    have hdWF := ttlWF_unfold h hd
    cases hlook : alookup d.cache key with
    | some ee =>
      rw [ttlAdd_eq_existing now value hd hlook]
      apply ttlWF_changeTTL
      obtain ⟨W1, W2, W3, W4⟩ := hdWF
      have hek : ee.key = key := W3 (key, ee) (mem_of_alookup_eq_some hlook)
      refine ttlWF_mk ⟨nodupKeys_aset _ _ W1, W2, ?_, ?_⟩
      · intro p hp
        rcases mem_aset W1 hp with h2 | h2
        · rw [h2]
          exact hek
        · exact W3 p h2.1
      · intro q hq
        have hW4 := W4 q hq
        by_cases hq2 : q.2 = key
        · rw [hq2] at hW4 ⊢
          rw [hlook] at hW4
          rw [alookup_aset, if_pos rfl]
          exact hW4
        · rw [alookup_aset, if_neg (fun hc => hq2 hc.symm)]
          exact hW4
    | none =>
      by_cases hcap : c.maxEntries ≠ 0 ∧ d.cache.length + 1 > c.maxEntries
      · rw [ttlAdd_eq_new_purge now value hd hlook hcap]
        exact ttlWF_mk (ttlWF_purge _ _
          (ttlWF_data_insert_new _ _ hdWF hlook))
      · rw [ttlAdd_eq_new_nopurge now value hd hlook hcap]
        exact ttlWF_mk (ttlWF_data_insert_new _ _ hdWF hlook)

theorem ttlWF_get (c : ttlCache K V) (now : Nat) (key : K) (h : c.WF) :
    (c.get now key).2.WF := by
  cases hd : c.data with
  | none =>
    rw [ttlGet_eq_nil now hd]
    exact h
  | some d =>
    cases hlook : alookup d.cache key with
    | none =>
      rw [ttlGet_eq_absent now hd hlook]
      exact h
    | some ele =>
      by_cases hexp : ele.ttl < now
      · rw [ttlGet_eq_expired now hd hlook hexp]
        exact ttlWF_remove c key h
      · cases hupd : c.updateAgeOnGet with
        | true =>
          rw [ttlGet_eq_fresh_update now hd hlook hexp hupd]
          exact ttlWF_changeTTL c now key h
        | false =>
          rw [ttlGet_eq_fresh now hd hlook hexp hupd]
          exact h

theorem ttlWF_new (m e : Nat) (u : Bool) : (newTTLCache m e u : ttlCache K V).WF := by
  unfold ttlCache.WF newTTLCache
  simp [TtlData.WF, NodupKeys, keysOf]

theorem ttlWF_clear (c : ttlCache K V) : c.clear.WF := by
  unfold ttlCache.WF ttlCache.clear
  trivial

/-! ## Behaviour of the capacity purge -/

theorem purgeLoop_lookup_none (maxE now : Nat) (ks : List Nat)
    {d : TtlData K V} {key : K} (h : alookup d.cache key = none) :
    alookup (ttlCache.purgeLoop maxE now ks d).cache key = none := by
  induction ks generalizing d with
  | nil => exact h
  | cons k ks ih =>
    simp only [ttlCache.purgeLoop]
    by_cases hc : d.cache.length ≤ maxE ∧ now < k
    · rw [if_pos hc]
      exact h
    · rw [if_neg hc]
      apply ih
      cases hlook : alookup d.expiration k with
      | none => exact h
      | some key2 =>
        show alookup (ttlCache.removeData key2 d).cache key = none
        unfold ttlCache.removeData
        cases hlook2 : alookup d.cache key2 with
        | none => exact h
        | some e =>
          show alookup (adel d.cache e.key) key = none
          rw [alookup_adel]
          by_cases h3 : e.key = key
          · rw [if_pos h3]
          · rw [if_neg h3]
            exact h

theorem purgeLoop_lookup_sub (maxE now : Nat) (ks : List Nat)
    {d : TtlData K V} {x : K} {e : Entry K V}
    (h : alookup (ttlCache.purgeLoop maxE now ks d).cache x = some e) :
    alookup d.cache x = some e := by
  induction ks generalizing d with
  | nil => exact h
  | cons k ks ih =>
    simp only [ttlCache.purgeLoop] at h
    by_cases hc : d.cache.length ≤ maxE ∧ now < k
    · rw [if_pos hc] at h
      exact h
    · rw [if_neg hc] at h
      cases hlook : alookup d.expiration k with
      | none =>
        rw [hlook] at h
        exact ih h
      | some key2 =>
        rw [hlook] at h
        have h2 : alookup (ttlCache.removeData key2 d).cache x = some e := ih h
        unfold ttlCache.removeData at h2
        cases hlook2 : alookup d.cache key2 with
        | none =>
          rw [hlook2] at h2
          exact h2
        | some e2 =>
          rw [hlook2] at h2
          have h3 : alookup (adel d.cache e2.key) x = some e := h2
          rw [alookup_adel] at h3
          by_cases h4 : e2.key = x
          · rw [if_pos h4] at h3
            exact Option.noConfusion h3
          · rw [if_neg h4] at h3
            exact h3

theorem purgeLoop_length_le (maxE now : Nat) (ks : List Nat)
    (d : TtlData K V) :
    (ttlCache.purgeLoop maxE now ks d).cache.length ≤ d.cache.length := by
  induction ks generalizing d with
  | nil => exact Nat.le_refl _
  | cons k ks ih =>
    simp only [ttlCache.purgeLoop]
    by_cases hc : d.cache.length ≤ maxE ∧ now < k
    · rw [if_pos hc]
    · rw [if_neg hc]
      refine le_trans (ih _) ?_
      cases hlook : alookup d.expiration k with
      | none => exact Nat.le_refl _
      | some key2 =>
        show (ttlCache.removeData key2 d).cache.length ≤ d.cache.length
        unfold ttlCache.removeData
        cases hlook2 : alookup d.cache key2 with
        | none => exact Nat.le_refl _
        | some e =>
          show (adel d.cache e.key).length ≤ d.cache.length
          exact length_adel_le _ _

/-- Walking the sorted instants never stops inside the expired prefix, so
every instant that is registered and already past gets its key evicted. -/
theorem purgeLoop_expired (maxE now : Nat) (ks : List Nat) {d : TtlData K V}
    (hWF : d.WF) (hnd : ks.Nodup) (hsort : List.Sorted (· ≤ ·) ks) :
    ∀ k0 key0, k0 ∈ ks → k0 ≤ now → alookup d.expiration k0 = some key0 →
    alookup (ttlCache.purgeLoop maxE now ks d).cache key0 = none := by
  induction ks generalizing d with
  | nil =>
    intro k0 key0 h
    simp at h
  | cons k ks ih =>
    intro k0 key0 hk0mem hk0now hreg
    obtain ⟨hle, hsort2⟩ := List.sorted_cons.mp hsort
    obtain ⟨hknotmem, hnd2⟩ := List.nodup_cons.mp hnd
    have hkk0 : k ≤ k0 := by
      rcases List.mem_cons.mp hk0mem with h1 | h1
      · rw [h1]
      · exact hle k0 h1
    have hnostop : ¬(d.cache.length ≤ maxE ∧ now < k) := by
      rintro ⟨-, h2⟩
      omega
    simp only [ttlCache.purgeLoop]
    rw [if_neg hnostop]
    rcases List.mem_cons.mp hk0mem with h1 | h1
    · subst h1
      rw [hreg]
      show alookup (ttlCache.purgeLoop maxE now ks
        (ttlCache.removeData key0 d)).cache key0 = none
      apply purgeLoop_lookup_none
      obtain ⟨e, helook, hettl⟩ := entry_of_reg hWF hreg
      have hek : e.key = key0 := key_of_lookup hWF helook
      unfold ttlCache.removeData
      rw [helook]
      show alookup (adel d.cache e.key) key0 = none
      rw [alookup_adel, if_pos hek]
    · have hkne : k ≠ k0 := fun hc => hknotmem (hc ▸ h1)
      cases hlook : alookup d.expiration k with
      | none => exact ih hWF hnd2 hsort2 k0 key0 h1 hk0now hreg
      | some key2 =>
        obtain ⟨e2, he2look, he2ttl⟩ := entry_of_reg hWF hlook
        have hWF2 : (ttlCache.removeData key2 d).WF :=
          ttlWF_data_removeData key2 hWF
        have hreg2 : alookup (ttlCache.removeData key2 d).expiration k0 =
            some key0 := by
          unfold ttlCache.removeData
          rw [he2look]
          show alookup (adel d.expiration e2.ttl) k0 = some key0
          rw [alookup_adel, if_neg (by rw [he2ttl]; exact hkne)]
          exact hreg
        exact ih hWF2 hnd2 hsort2 k0 key0 h1 hk0now hreg2

/-- The walk evicts in ascending instant order: a registered key with a
strictly later instant can only have been evicted after the walk already
passed — and evicted — the key registered at any earlier instant. -/
theorem purgeLoop_earliest (maxE now : Nat) (ks : List Nat) {d : TtlData K V}
    (hWF : d.WF) (hnd : ks.Nodup) (hsort : List.Sorted (· ≤ ·) ks) :
    ∀ i1 i2 key1 key2, i1 ∈ ks → i2 ∈ ks → i1 < i2 →
    alookup d.expiration i1 = some key1 →
    alookup d.expiration i2 = some key2 →
    alookup (ttlCache.purgeLoop maxE now ks d).cache key2 = none →
    alookup (ttlCache.purgeLoop maxE now ks d).cache key1 = none := by
  induction ks generalizing d with
  | nil =>
    intro i1 i2 key1 key2 h1
    simp at h1
  | cons k ks ih =>
    intro i1 i2 key1 key2 h1 h2 hlt hreg1 hreg2 hev
    obtain ⟨hle, hsort2⟩ := List.sorted_cons.mp hsort
    obtain ⟨hknotmem, hnd2⟩ := List.nodup_cons.mp hnd
    simp only [ttlCache.purgeLoop] at hev ⊢
    by_cases hc : d.cache.length ≤ maxE ∧ now < k
    · rw [if_pos hc] at hev ⊢
      -- the walk stopped at once, so no key was evicted at all
      obtain ⟨e2, he2look, -⟩ := entry_of_reg hWF hreg2
      rw [he2look] at hev
      exact Option.noConfusion hev
    · rw [if_neg hc] at hev ⊢
      rcases List.mem_cons.mp h1 with hk1 | hk1
      · -- this step evicts the key registered at i1
        subst hk1
        rw [hreg1]
        show alookup (ttlCache.purgeLoop maxE now ks
          (ttlCache.removeData key1 d)).cache key1 = none
        apply purgeLoop_lookup_none
        obtain ⟨e1, he1look, -⟩ := entry_of_reg hWF hreg1
        have hek : e1.key = key1 := key_of_lookup hWF he1look
        unfold ttlCache.removeData
        rw [he1look]
        show alookup (adel d.cache e1.key) key1 = none
        rw [alookup_adel, if_pos hek]
      · -- i1 sits in the tail, hence k < i1 < i2 puts i2 in the tail too
        have hk1le : k ≤ i1 := hle i1 hk1
        have hk2 : i2 ∈ ks := by
          rcases List.mem_cons.mp h2 with hk2 | hk2
          · exfalso
            omega
          · exact hk2
        have hkne1 : k ≠ i1 := fun hc2 => hknotmem (hc2 ▸ hk1)
        have hkne2 : k ≠ i2 := fun hc2 => hknotmem (hc2 ▸ hk2)
        cases hlook : alookup d.expiration k with
        | none =>
          rw [hlook] at hev
          exact ih hWF hnd2 hsort2 i1 i2 key1 key2 hk1 hk2 hlt hreg1 hreg2 hev
        | some keyk =>
          rw [hlook] at hev
          obtain ⟨ek, heklook, hekttl⟩ := entry_of_reg hWF hlook
          have hWF2 : (ttlCache.removeData keyk d).WF :=
            ttlWF_data_removeData keyk hWF
          have hpres : ∀ i key', k ≠ i → alookup d.expiration i = some key' →
              alookup (ttlCache.removeData keyk d).expiration i = some key' := by
            intro i key' hne hreg
            unfold ttlCache.removeData
            rw [heklook]
            show alookup (adel d.expiration ek.ttl) i = some key'
            rw [alookup_adel, if_neg (by rw [hekttl]; exact hne)]
            exact hreg
          exact ih hWF2 hnd2 hsort2 i1 i2 key1 key2 hk1 hk2 hlt
            (hpres i1 key1 hkne1 hreg1) (hpres i2 key2 hkne2 hreg2) hev

/-- From at most one entry over budget (the situation at every purge call
site), the purge brings the size back within budget: the walk's first step
always evicts one entry, and the walk never grows the store. -/
theorem purge_capacity (maxE now : Nat) {d : TtlData K V} (hWF : d.WF)
    (hne : d.expiration ≠ []) (hlen : d.cache.length ≤ maxE + 1) :
    (ttlCache.purgeToCapacity maxE now d).cache.length ≤ maxE := by
  unfold ttlCache.purgeToCapacity
  cases hks : List.insertionSort (· ≤ ·) (keysOf d.expiration) with
  | nil =>
    exfalso
    have h1 := congrArg List.length hks
    rw [List.length_insertionSort] at h1
    simp only [List.length_nil] at h1
    have h2 : d.expiration.length = 0 := by
      simpa [keysOf] using h1
    exact hne (List.length_eq_zero.mp h2)
  | cons k ks =>
    simp only [ttlCache.purgeLoop]
    by_cases hc : d.cache.length ≤ maxE ∧ now < k
    · rw [if_pos hc]
      exact hc.1
    · rw [if_neg hc]
      by_cases hle : d.cache.length ≤ maxE
      · refine le_trans (purgeLoop_length_le _ _ _ _) (le_trans ?_ hle)
        cases hlook : alookup d.expiration k with
        | none => exact Nat.le_refl _
        | some key2 =>
          show (ttlCache.removeData key2 d).cache.length ≤ d.cache.length
          unfold ttlCache.removeData
          cases hlook2 : alookup d.cache key2 with
          | none => exact Nat.le_refl _
          | some e =>
            show (adel d.cache e.key).length ≤ d.cache.length
            exact length_adel_le _ _
      · have hkmem : k ∈ keysOf d.expiration := by
          have h1 : k ∈ List.insertionSort (· ≤ ·) (keysOf d.expiration) := by
            rw [hks]
            exact List.mem_cons_self _ _
          exact (List.mem_insertionSort _).mp h1
        obtain ⟨key2, hlook⟩ := alookup_isSome_of_mem_keysOf hkmem
        obtain ⟨e2, he2look, he2ttl⟩ := entry_of_reg hWF hlook
        have hkey2mem : e2.key ∈ keysOf d.cache := by
          rw [key_of_lookup hWF he2look]
          exact mem_keysOf_of_alookup he2look
        rw [hlook]
        refine le_trans (purgeLoop_length_le _ _ _ _) ?_
        show (ttlCache.removeData key2 d).cache.length ≤ maxE
        unfold ttlCache.removeData
        rw [he2look]
        show (adel d.cache e2.key).length ≤ maxE
        have := length_adel_lt hkey2mem
        omega

/-- An insert from a within-budget state lands within budget again. -/
theorem ttl_size_bound (c : ttlCache K V) (now : Nat) (key : K) (value : V)
    (hWF : c.WF) (hm : c.maxEntries ≠ 0) (hsz : c.size ≤ c.maxEntries) :
    (c.add now key value).size ≤ c.maxEntries := by
  cases hd : c.data with
  | none =>
    rw [ttlAdd_eq_nil now value hd]
    show ([(key, (⟨key, now + c.expiry, value⟩ : Entry K V))]).length ≤
      c.maxEntries
    simp only [List.length_singleton]
    omega
  | some d =>
    have hdWF := ttlWF_unfold hWF hd
    have hszd : d.cache.length ≤ c.maxEntries := by
      unfold ttlCache.size at hsz
      rw [hd] at hsz
      exact hsz
    cases hlook : alookup d.cache key with
    | some ee =>
      rw [ttlAdd_eq_existing now value hd hlook]
      have h1 : alookup (aset d.cache key ⟨ee.key, ee.ttl, value⟩) key =
          some ⟨ee.key, ee.ttl, value⟩ := by
        rw [alookup_aset, if_pos rfl]
      rw [ttlChangeTTL_eq_mem now rfl h1]
      show (aset (aset d.cache key ⟨ee.key, ee.ttl, value⟩) key _).length ≤
        c.maxEntries
      rw [length_aset_of_mem _ (mem_keysOf_aset.mpr (Or.inl rfl)),
        length_aset_of_mem _ (mem_keysOf_of_alookup hlook)]
      exact hszd
    | none =>
      by_cases hcap : c.maxEntries ≠ 0 ∧ d.cache.length + 1 > c.maxEntries
      · rw [ttlAdd_eq_new_purge now value hd hlook hcap]
        show (ttlCache.purgeToCapacity c.maxEntries now _).cache.length ≤
          c.maxEntries
        refine purge_capacity _ _ (ttlWF_data_insert_new _ _ hdWF hlook)
          (aset_ne_nil _ _ _) ?_
        show (aset d.cache key ⟨key, now + c.expiry, value⟩).length ≤
          c.maxEntries + 1
        rw [length_aset_of_not_mem _ (alookup_eq_none_iff.mp hlook)]
        omega
      · rw [ttlAdd_eq_new_nopurge now value hd hlook hcap]
        show (aset d.cache key ⟨key, now + c.expiry, value⟩).length ≤
          c.maxEntries
        rw [length_aset_of_not_mem _ (alookup_eq_none_iff.mp hlook)]
        omega

/-! ## The entry stored for a key right after `add` -/

/-- After an LRU `add`, the sequence's first entry carrying `key` is the
freshly written record (in every branch it sits at the very front). -/
theorem lru_add_find (c : lruCache K V) (now : Nat) (key : K) (value : V)
    (hWF : c.WF) {d' : LruData K V}
    (hd' : (c.add now key value).data = some d') :
    d'.ll.find? (fun x => decide (x.key = key)) =
      some ⟨key, now + c.expiry, value⟩ := by
  cases hd : c.data with
  | none =>
    rw [lruCache.add_eq_nil now value hd] at hd'
    have hd2 : some (⟨[⟨key, now + c.expiry, value⟩], [key]⟩ : LruData K V) =
      some d' := hd'
    cases hd2
    rw [List.find?_cons_of_pos _ (by simp)]
  | some d =>
    obtain ⟨⟨hnd, hperm⟩, hlen⟩ := lruWF_unfold hWF hd
    by_cases hmem : key ∈ d.cache
    · obtain ⟨ee, hfind⟩ := find?_key_isSome (hperm.mem_iff.mp hmem)
      have hek : ee.key = key := find?_key_eq hfind
      rw [lruCache.add_eq_existing now value hd hmem hfind] at hd'
      have hd2 : some (⟨⟨ee.key, now + c.expiry, value⟩ ::
        removeFirstKey key d.ll, d.cache⟩ : LruData K V) = some d' := hd'
      cases hd2
      rw [List.find?_cons_of_pos _ (by simp [hek]), hek]
    · by_cases hcap : c.maxEntries ≠ 0 ∧ d.ll.length + 1 > c.maxEntries
      · have hne : d.ll ≠ [] := by
          intro hnil
          rw [hnil] at hcap
          simp only [List.length_nil] at hcap
          omega
        rcases List.eq_nil_or_concat d.ll with hnil | ⟨L, b, hll⟩
        · exact absurd hnil hne
        · rw [List.concat_eq_append] at hll
          rw [lruCache.add_eq_new_evict now value hd hmem hll hcap] at hd'
          have hd2 : some (⟨⟨key, now + c.expiry, value⟩ :: L,
            kdel b.key (key :: d.cache)⟩ : LruData K V) = some d' := hd'
          cases hd2
          rw [List.find?_cons_of_pos _ (by simp)]
      · rw [lruCache.add_eq_new_noevict now value hd hmem hcap] at hd'
        have hd2 : some (⟨⟨key, now + c.expiry, value⟩ :: d.ll,
          key :: d.cache⟩ : LruData K V) = some d' := hd'
        cases hd2
        rw [List.find?_cons_of_pos _ (by simp)]

/-- After a TTL `add`, whatever entry the primary store still binds to
`key` is the freshly written record. -/
theorem ttl_add_lookup (c : ttlCache K V) (now : Nat) (key : K) (value : V)
    (hWF : c.WF) {d' : TtlData K V}
    (hd' : (c.add now key value).data = some d') {e : Entry K V}
    (he : alookup d'.cache key = some e) :
    e = ⟨key, now + c.expiry, value⟩ := by
  cases hd : c.data with
  | none =>
    rw [ttlAdd_eq_nil now value hd] at hd'
    have hd2 : some (⟨[(key, ⟨key, now + c.expiry, value⟩)],
      [(now + c.expiry, key)]⟩ : TtlData K V) = some d' := hd'
    cases hd2
    rw [alookup_cons, if_pos rfl] at he
    exact (Option.some.injEq _ _).mp he.symm
  | some d =>
    have hdWF := ttlWF_unfold hWF hd
    cases hlook : alookup d.cache key with
    | some ee =>
      have hek : ee.key = key := key_of_lookup hdWF hlook
      rw [ttlAdd_eq_existing now value hd hlook] at hd'
      have h1 : alookup (aset d.cache key ⟨ee.key, ee.ttl, value⟩) key =
          some ⟨ee.key, ee.ttl, value⟩ := by
        rw [alookup_aset, if_pos rfl]
      rw [ttlChangeTTL_eq_mem now rfl h1] at hd'
      have hd2 : some (⟨aset (aset d.cache key ⟨ee.key, ee.ttl, value⟩) key
        ⟨ee.key, now + c.expiry, value⟩,
        aset (adel d.expiration ee.ttl) (now + c.expiry) key⟩ : TtlData K V) =
        some d' := hd'
      cases hd2
      rw [alookup_aset, if_pos rfl] at he
      have he2 : (⟨ee.key, now + c.expiry, value⟩ : Entry K V) = e :=
        (Option.some.injEq _ _).mp he
      rw [← he2, hek]
    | none =>
      by_cases hcap : c.maxEntries ≠ 0 ∧ d.cache.length + 1 > c.maxEntries
      · rw [ttlAdd_eq_new_purge now value hd hlook hcap] at hd'
        have hd2 : some (ttlCache.purgeToCapacity c.maxEntries now
          ⟨aset d.cache key ⟨key, now + c.expiry, value⟩,
          aset d.expiration (now + c.expiry) key⟩) = some d' := hd'
        cases hd2
        have he2 := purgeLoop_lookup_sub _ _ _ he
        have he3 : alookup (aset d.cache key ⟨key, now + c.expiry, value⟩)
            key = some e := he2
        rw [alookup_aset, if_pos rfl] at he3
        exact (Option.some.injEq _ _).mp he3.symm
      · rw [ttlAdd_eq_new_nopurge now value hd hlook hcap] at hd'
        have hd2 : some (⟨aset d.cache key ⟨key, now + c.expiry, value⟩,
          aset d.expiration (now + c.expiry) key⟩ : TtlData K V) = some d' := hd'
        cases hd2
        rw [alookup_aset, if_pos rfl] at he
        exact (Option.some.injEq _ _).mp he.symm

/-! ## Preservation of orphan-freedom (the existence direction)

Every stored key is registered under its own instant as long as no index
write lands on an instant already registered to a different key; the same
nanosecond-collision that the claim carves out is exactly what the
`hcol` hypotheses below exclude. -/

theorem ttlFI_unfold {c : ttlCache K V} {d : TtlData K V}
    (h : c.fullyIndexed) (hd : c.data = some d) : d.fullyIndexed := by
  unfold ttlCache.fullyIndexed at h
  rw [hd] at h
  exact h

theorem ttlFI_mk {c : ttlCache K V} {d : TtlData K V} (h : d.fullyIndexed) :
    ttlCache.fullyIndexed { c with data := some d } := by
  unfold ttlCache.fullyIndexed
  exact h

theorem ttlWF_data_overwrite {d : TtlData K V} {key : K} {ee : Entry K V}
    (value : V) (hWF : d.WF) (hlook : alookup d.cache key = some ee) :
    TtlData.WF (⟨aset d.cache key ⟨ee.key, ee.ttl, value⟩,
      d.expiration⟩ : TtlData K V) := by
  obtain ⟨W1, W2, W3, W4⟩ := hWF
  have hek : ee.key = key := W3 (key, ee) (mem_of_alookup_eq_some hlook)
  refine ⟨nodupKeys_aset _ _ W1, W2, ?_, ?_⟩
  · intro p hp
    rcases mem_aset W1 hp with h2 | h2
    · rw [h2]
      exact hek
    · exact W3 p h2.1
  · intro q hq
    have hW4 := W4 q hq
    by_cases hq2 : q.2 = key
    · rw [hq2] at hW4 ⊢
      rw [hlook] at hW4
      show (alookup (aset d.cache key ⟨ee.key, ee.ttl, value⟩) key).map
        Entry.ttl = some q.1
      rw [alookup_aset, if_pos rfl]
      exact hW4
    · show (alookup (aset d.cache key ⟨ee.key, ee.ttl, value⟩) q.2).map
        Entry.ttl = some q.1
      rw [alookup_aset, if_neg (fun hc => hq2 hc.symm)]
      exact hW4

theorem ttlFI_data_removeData (key : K) {d : TtlData K V} (hWF : d.WF)
    (hFI : d.fullyIndexed) :
    (ttlCache.removeData key d).fullyIndexed := by
  unfold ttlCache.removeData
  cases hlook : alookup d.cache key with
  | none => exact hFI
  | some e =>
    intro p hp
    obtain ⟨hp1, hp2⟩ := mem_adel.mp hp
    have hFIp := hFI p hp1
    have hFIe := hFI (key, e) (mem_of_alookup_eq_some hlook)
    have hek : e.key = key := key_of_lookup hWF hlook
    have hne : (p.2).ttl ≠ e.ttl := by
      intro hc
      rw [hc] at hFIp
      rw [hFIp] at hFIe
      exact hp2 (((Option.some.injEq _ _).mp hFIe) ▸ (hek ▸ rfl))
    show alookup (adel d.expiration e.ttl) (p.2).ttl = some p.1
    rw [alookup_adel, if_neg (fun hc => hne hc.symm)]
    exact hFIp

theorem ttlFI_purgeLoop (maxE now : Nat) (ks : List Nat) {d : TtlData K V}
    (hWF : d.WF) (hFI : d.fullyIndexed) :
    (ttlCache.purgeLoop maxE now ks d).fullyIndexed := by
  induction ks generalizing d with
  | nil => exact hFI
  | cons k ks ih =>
    simp only [ttlCache.purgeLoop]
    by_cases hc : d.cache.length ≤ maxE ∧ now < k
    · rw [if_pos hc]
      exact hFI
    · rw [if_neg hc]
      cases hlook : alookup d.expiration k with
      | none => exact ih hWF hFI
      | some key2 =>
        exact ih (ttlWF_data_removeData key2 hWF)
          (ttlFI_data_removeData key2 hWF hFI)

theorem ttlFI_data_changeTTL {d : TtlData K V} {key : K} {ee : Entry K V}
    (T : Nat) (hWF : d.WF) (hFI : d.fullyIndexed)
    (hlook : alookup d.cache key = some ee)
    (hcol : ∀ key1, alookup d.expiration T = some key1 → key1 = key) :
    TtlData.fullyIndexed (⟨aset d.cache key ⟨ee.key, T, ee.value⟩,
      aset (adel d.expiration ee.ttl) T key⟩ : TtlData K V) := by
  intro p hp
  rcases mem_aset hWF.1 hp with h2 | h2
  · rw [h2]
    show alookup (aset (adel d.expiration ee.ttl) T key) T = some key
    rw [alookup_aset, if_pos rfl]
  · obtain ⟨hp1, hp2⟩ := h2
    have hFIp := hFI p hp1
    have hFIe := hFI (key, ee) (mem_of_alookup_eq_some hlook)
    have hne1 : (p.2).ttl ≠ ee.ttl := by
      intro hc
      rw [hc] at hFIp
      rw [hFIp] at hFIe
      exact hp2 ((Option.some.injEq _ _).mp hFIe)
    have hne2 : (p.2).ttl ≠ T := by
      intro hc
      rw [hc] at hFIp
      exact hp2 (hcol p.1 hFIp)
    show alookup (aset (adel d.expiration ee.ttl) T key) (p.2).ttl =
      some p.1
    rw [alookup_aset, if_neg (fun hc => hne2 hc.symm), alookup_adel,
      if_neg (fun hc => hne1 hc.symm)]
    exact hFIp

theorem ttlFI_data_overwrite {d : TtlData K V} {key : K} {ee : Entry K V}
    (value : V) (hWF : d.WF) (hFI : d.fullyIndexed)
    (hlook : alookup d.cache key = some ee) :
    TtlData.fullyIndexed (⟨aset d.cache key ⟨ee.key, ee.ttl, value⟩,
      d.expiration⟩ : TtlData K V) := by
  intro p hp
  rcases mem_aset hWF.1 hp with h2 | h2
  · rw [h2]
    show alookup d.expiration ee.ttl = some key
    exact hFI (key, ee) (mem_of_alookup_eq_some hlook)
  · exact hFI p h2.1

theorem ttlFI_data_insert_new {d : TtlData K V} {key : K} (T : Nat)
    (value : V) (hWF : d.WF) (hFI : d.fullyIndexed)
    (hcol : ∀ key1, alookup d.expiration T = some key1 → key1 = key) :
    TtlData.fullyIndexed (⟨aset d.cache key ⟨key, T, value⟩,
      aset d.expiration T key⟩ : TtlData K V) := by
  intro p hp
  rcases mem_aset hWF.1 hp with h2 | h2
  · rw [h2]
    show alookup (aset d.expiration T key) T = some key
    rw [alookup_aset, if_pos rfl]
  · obtain ⟨hp1, hp2⟩ := h2
    have hFIp := hFI p hp1
    have hne2 : (p.2).ttl ≠ T := by
      intro hc
      rw [hc] at hFIp
      exact hp2 (hcol p.1 hFIp)
    show alookup (aset d.expiration T key) (p.2).ttl = some p.1
    rw [alookup_aset, if_neg (fun hc => hne2 hc.symm)]
    exact hFIp

theorem ttlFI_new (m e : Nat) (u : Bool) :
    (newTTLCache m e u : ttlCache K V).fullyIndexed := by
  unfold ttlCache.fullyIndexed newTTLCache
  intro p hp
  simp at hp

theorem ttlFI_clear (c : ttlCache K V) : c.clear.fullyIndexed := by
  unfold ttlCache.fullyIndexed ttlCache.clear
  trivial

theorem ttlFI_remove (c : ttlCache K V) (key : K) (hWF : c.WF)
    (hFI : c.fullyIndexed) : (c.remove key).fullyIndexed := by
  cases hd : c.data with
  | none =>
    rw [ttlRemove_eq_nil hd]
    exact hFI
  | some d =>
    rw [ttlRemove_eq_data hd]
    exact ttlFI_mk (ttlFI_data_removeData key (ttlWF_unfold hWF hd)
      (ttlFI_unfold hFI hd))

theorem ttlFI_changeTTL (c : ttlCache K V) (now : Nat) (key : K)
    (hWF : c.WF) (hFI : c.fullyIndexed)
    (hcol : ∀ (d : TtlData K V) (key1 : K), c.data = some d →
      alookup d.expiration (now + c.expiry) = some key1 → key1 = key) :
    (c.changeTTL now key).fullyIndexed := by
  cases hd : c.data with
  | none =>
    rw [ttlChangeTTL_eq_nil now hd]
    exact hFI
  | some d =>
    cases hlook : alookup d.cache key with
    | none =>
      rw [ttlChangeTTL_eq_absent now hd hlook]
      exact hFI
    | some ee =>
      rw [ttlChangeTTL_eq_mem now hd hlook]
      exact ttlFI_mk (ttlFI_data_changeTTL _ (ttlWF_unfold hWF hd)
        (ttlFI_unfold hFI hd) hlook (fun key1 => hcol d key1 hd))

theorem ttlFI_add (c : ttlCache K V) (now : Nat) (key : K) (value : V)
    (hWF : c.WF) (hFI : c.fullyIndexed)
    (hcol : ∀ (d : TtlData K V) (key1 : K), c.data = some d →
      alookup d.expiration (now + c.expiry) = some key1 → key1 = key) :
    (c.add now key value).fullyIndexed := by
  cases hd : c.data with
  | none =>
    rw [ttlAdd_eq_nil now value hd]
    apply ttlFI_mk
    intro p hp
    have hp2 : p = (key, (⟨key, now + c.expiry, value⟩ : Entry K V)) :=
      List.mem_singleton.mp hp
    rw [hp2]
    show alookup [(now + c.expiry, key)] (now + c.expiry) = some key
    rw [alookup_cons, if_pos rfl]
  | some d =>
    have hdWF := ttlWF_unfold hWF hd
    have hdFI := ttlFI_unfold hFI hd
    cases hlook : alookup d.cache key with
    | some ee =>
      rw [ttlAdd_eq_existing now value hd hlook]
      refine ttlFI_changeTTL _ now key
        (ttlWF_mk (ttlWF_data_overwrite value hdWF hlook))
        (ttlFI_mk (ttlFI_data_overwrite value hdWF hdFI hlook)) ?_
      intro d1 key1 hd1 hreg1
      have hd2 : some (⟨aset d.cache key ⟨ee.key, ee.ttl, value⟩,
        d.expiration⟩ : TtlData K V) = some d1 := hd1
      cases hd2
      exact hcol d key1 hd hreg1
    | none =>
      by_cases hcap : c.maxEntries ≠ 0 ∧ d.cache.length + 1 > c.maxEntries
      · rw [ttlAdd_eq_new_purge now value hd hlook hcap]
        exact ttlFI_mk (ttlFI_purgeLoop _ _ _
          (ttlWF_data_insert_new _ _ hdWF hlook)
          (ttlFI_data_insert_new _ _ hdWF hdFI
            (fun key1 h => hcol d key1 hd h)))
      · rw [ttlAdd_eq_new_nopurge now value hd hlook hcap]
        exact ttlFI_mk (ttlFI_data_insert_new _ _ hdWF hdFI
          (fun key1 h => hcol d key1 hd h))

theorem ttlFI_get (c : ttlCache K V) (now : Nat) (key : K)
    (hWF : c.WF) (hFI : c.fullyIndexed)
    (hcol : ∀ (d : TtlData K V) (key1 : K), c.data = some d →
      alookup d.expiration (now + c.expiry) = some key1 → key1 = key) :
    (c.get now key).2.fullyIndexed := by
  cases hd : c.data with
  | none =>
    rw [ttlGet_eq_nil now hd]
    exact hFI
  | some d =>
    cases hlook : alookup d.cache key with
    | none =>
      rw [ttlGet_eq_absent now hd hlook]
      exact hFI
    | some ele =>
      by_cases hexp : ele.ttl < now
      · rw [ttlGet_eq_expired now hd hlook hexp]
        exact ttlFI_remove c key hWF hFI
      · cases hupd : c.updateAgeOnGet with
        | true =>
          rw [ttlGet_eq_fresh_update now hd hlook hexp hupd]
          exact ttlFI_changeTTL c now key hWF hFI hcol
        | false =>
          rw [ttlGet_eq_fresh now hd hlook hexp hupd]
          exact hFI

/-! # Claim theorems -/

/-- Claim C1: for the LRU engine with `maxEntries = N > 0`, inserting a
previously absent key from a full state evicts exactly the back-most
(least-recently-used) entry — the new sequence is the fresh entry in front
of the old sequence minus its back element, and the map loses exactly the
back element's key — and the size ends at `N`, never above it.
Concretely, with `maxEntries = 5`: inserting keys 1..6 in order with no
reads leaves `get 1` not-found and `get 6` found; inserting 1..5, reading
key 1, then inserting 6 evicts key 2 instead, keeping key 1. -/
theorem lru_eviction_spec :
    (∀ (c : lruCache Nat Nat) (d : LruData Nat Nat) (now key value : Nat),
      c.data = some d → 0 < c.maxEntries → key ∉ d.cache →
      d.ll.length ≤ c.maxEntries → c.maxEntries < d.ll.length + 1 →
      ∀ (h : d.ll ≠ []),
        (c.add now key value).data = some ⟨⟨key, now + c.expiry, value⟩ ::
          d.ll.dropLast, kdel (d.ll.getLast h).key (key :: d.cache)⟩ ∧
        (c.add now key value).size = c.maxEntries) ∧
    ((lruScenario1.get 0 1).1 = none ∧ (lruScenario1.get 0 6).1 = some 16) ∧
    ((lruScenario2.get 0 2).1 = none ∧ (lruScenario2.get 0 1).1 = some 11) := by
  refine ⟨?_, by decide, by decide⟩
  intro c d now key value hd hpos hmem hlen hover h
  have hcap : c.maxEntries ≠ 0 ∧ d.ll.length + 1 > c.maxEntries :=
    ⟨by omega, by omega⟩
  have hll : d.ll = d.ll.dropLast ++ [d.ll.getLast h] :=
    (List.dropLast_append_getLast h).symm
  rw [lruCache.add_eq_new_evict now value hd hmem hll hcap]
  refine ⟨rfl, ?_⟩
  show (⟨key, now + c.expiry, value⟩ :: d.ll.dropLast :
    List (Entry Nat Nat)).length = c.maxEntries
  have h1 : 0 < d.ll.length := List.length_pos.mpr h
  simp only [List.length_cons, List.length_dropLast]
  omega

/-- Witness for `lru_eviction_spec`: a bounded engine (`maxEntries = 1`)
holding key 9 receives key 7; the back entry (key 9) is evicted and the
size stays 1. -/
theorem lru_eviction_spec_witness :
    ((⟨1, 50, some ⟨[⟨9, 100, 0⟩], [9]⟩⟩ : lruCache Nat Nat).add 0 7 70).data =
      some ⟨[⟨7, 50, 70⟩], [7]⟩ ∧
    ((⟨1, 50, some ⟨[⟨9, 100, 0⟩], [9]⟩⟩ : lruCache Nat Nat).add 0 7 70).size
      = 1 := by
  have h := lru_eviction_spec.1 ⟨1, 50, some ⟨[⟨9, 100, 0⟩], [9]⟩⟩
    ⟨[⟨9, 100, 0⟩], [9]⟩ 0 7 70 rfl (by decide) (by decide) (by decide)
    (by decide) (by decide)
  exact ⟨h.1, h.2⟩

/-- Claim C3: LRU lookup.  An absent key (nil structures or unmapped key)
is a miss leaving the state untouched.  A mapped key whose entry is past
its expiry instant is removed from both the sequence and the map and
reported as a miss.  A mapped, unexpired key is moved to the front of the
sequence and its value returned. -/
theorem lru_get_spec :
    (∀ (c : lruCache K V) (now : Nat) (key : K),
      c.data = none → c.get now key = (none, c)) ∧
    (∀ (c : lruCache K V) (d : LruData K V) (now : Nat) (key : K),
      c.data = some d → key ∉ d.cache → c.get now key = (none, c)) ∧
    (∀ (c : lruCache K V) (d : LruData K V) (now : Nat) (key : K)
      (ele : Entry K V), c.WF → c.data = some d → key ∈ d.cache →
      d.ll.find? (fun x => decide (x.key = key)) = some ele →
      ele.ttl < now →
      (c.get now key).1 = none ∧
      (c.get now key).2.data =
        some ⟨removeFirstKey key d.ll, kdel key d.cache⟩ ∧
      key ∉ kdel key d.cache ∧
      (∀ x ∈ removeFirstKey key d.ll, x.key ≠ key)) ∧
    (∀ (c : lruCache K V) (d : LruData K V) (now : Nat) (key : K)
      (ele : Entry K V), c.data = some d → key ∈ d.cache →
      d.ll.find? (fun x => decide (x.key = key)) = some ele →
      ¬ele.ttl < now →
      (c.get now key).1 = some ele.value ∧
      (c.get now key).2.data =
        some ⟨ele :: removeFirstKey key d.ll, d.cache⟩) := by
  refine ⟨?_, ?_, ?_, ?_⟩
  · intro c now key hd
    exact lruCache.get_eq_nil now hd
  · intro c d now key hd hmem
    exact lruCache.get_eq_absent now hd hmem
  · intro c d now key ele hWF hd hmem hfind hexp
    obtain ⟨⟨hnd, hperm⟩, -⟩ := lruWF_unfold hWF hd
    have hknd : (d.ll.map Entry.key).Nodup := (hperm.nodup_iff).mp hnd
    rw [lruCache.get_eq_expired now hd hmem hfind hexp,
      lruCache.remove_eq_mem hd hmem]
    refine ⟨rfl, rfl, fun hc => (mem_kdel.mp hc).2 rfl, ?_⟩
    intro x hx
    intro hc
    have h1 : x.key ∈ (removeFirstKey key d.ll).map Entry.key :=
      List.mem_map_of_mem Entry.key hx
    rw [keys_removeFirstKey_nodup hknd] at h1
    exact (mem_kdel.mp h1).2 hc
  · intro c d now key ele hd hmem hfind hexp
    rw [lruCache.get_eq_fresh now hd hmem hfind hexp]
    exact ⟨rfl, rfl⟩

/-- Witness for `lru_get_spec`: the four branches at concrete states (an
engine with cleared structures; an empty engine; one entry expired at
instant 2 read at 3; the same entry read at 1). -/
theorem lru_get_spec_witness :
    ((⟨0, 5, none⟩ : lruCache Nat Nat).get 0 3 = (none, ⟨0, 5, none⟩)) ∧
    ((⟨0, 5, some ⟨[], []⟩⟩ : lruCache Nat Nat).get 0 3 =
      (none, ⟨0, 5, some ⟨[], []⟩⟩)) ∧
    (((⟨0, 5, some ⟨[⟨1, 2, 10⟩], [1]⟩⟩ : lruCache Nat Nat).get 3 1).1 =
      none) ∧
    (((⟨0, 5, some ⟨[⟨1, 2, 10⟩], [1]⟩⟩ : lruCache Nat Nat).get 1 1).1 =
      some 10) := by
  refine ⟨lru_get_spec.1 _ 0 3 rfl,
    lru_get_spec.2.1 _ _ 0 3 rfl (by decide),
    (lru_get_spec.2.2.1 _ ⟨[⟨1, 2, 10⟩], [1]⟩ 3 1 ⟨1, 2, 10⟩ (by decide) rfl
      (by decide) (by decide) (by decide)).1,
    (lru_get_spec.2.2.2 _ ⟨[⟨1, 2, 10⟩], [1]⟩ 1 1 ⟨1, 2, 10⟩ rfl (by decide)
      (by decide) (by decide)).1⟩

/-- Claim C5: the LRU structural invariant — the key map and the recency
sequence carry exactly the same keys, each exactly once, and the sequence
length never exceeds a non-zero `maxEntries` — holds for a fresh engine
and is preserved by every operation. -/
theorem lru_invariant_spec :
    (∀ m e : Nat, (newLRU m e : lruCache K V).WF) ∧
    (∀ (c : lruCache K V) (now : Nat) (key : K) (value : V),
      c.WF → (c.add now key value).WF) ∧
    (∀ (c : lruCache K V) (now : Nat) (key : K),
      c.WF → (c.get now key).2.WF) ∧
    (∀ (c : lruCache K V) (key : K), c.WF → (c.remove key).WF) ∧
    (∀ c : lruCache K V, c.clear.WF) ∧
    (∀ d : LruData K V, d.WF →
      (∀ k, k ∈ d.cache ↔ k ∈ d.ll.map Entry.key) ∧
      d.cache.Nodup ∧ (d.ll.map Entry.key).Nodup) ∧
    (∀ c : lruCache K V, c.WF → c.maxEntries ≠ 0 →
      c.size ≤ c.maxEntries) := by
  refine ⟨lruWF_new, lruWF_add, lruWF_get, lruWF_remove, lruWF_clear,
    ?_, ?_⟩
  · intro d hWF
    exact ⟨fun k => hWF.2.mem_iff, hWF.1, hWF.2.nodup_iff.mp hWF.1⟩
  · intro c hWF hm
    cases hd : c.data with
    | none =>
      unfold lruCache.size
      rw [hd]
      exact Nat.zero_le _
    | some d =>
      unfold lruCache.size
      rw [hd]
      exact (lruWF_unfold hWF hd).2 hm

/-- Witness for `lru_invariant_spec`: the invariant holds after an insert
into a small well-formed engine, and the derived membership/size bounds
hold at it. -/
theorem lru_invariant_spec_witness :
    ((newLRU 2 5 : lruCache Nat Nat).add 0 1 10).WF ∧
    ((1 ∈ ([1, 2] : List Nat) ↔ 1 ∈ ([⟨1, 3, 7⟩, ⟨2, 4, 8⟩] :
      List (Entry Nat Nat)).map Entry.key)) ∧
    (⟨2, 5, some ⟨[⟨1, 3, 7⟩, ⟨2, 4, 8⟩], [1, 2]⟩⟩ :
      lruCache Nat Nat).size ≤ 2 := by
  refine ⟨lru_invariant_spec.2.1 _ 0 1 10 (by decide), ?_, ?_⟩
  · exact (lru_invariant_spec.2.2.2.2.2.1 ⟨[⟨1, 3, 7⟩, ⟨2, 4, 8⟩], [1, 2]⟩
      (by decide)).1 1
  · exact lru_invariant_spec.2.2.2.2.2.2 _ (by decide) (by decide)

/-- Claim C2: the TTL capacity purge (run by `add` only when bounded and
over budget) walks the registered expiry instants in ascending order,
stopping at the first instant that is still in the future while the size
is already within budget.  Consequently (i) a within-budget store whose
registered instants are all in the future is left untouched, (ii) every
registered already-expired entry is evicted regardless of capacity,
(iii) registered entries are evicted earliest-instant first (a key with a
later instant is only gone if the key at any earlier registered instant is
gone too), and (iv) an insert on a bounded engine from a within-budget
state lands within budget again. -/
theorem ttl_purge_spec :
    (∀ (maxE now : Nat) (d : TtlData K V),
      d.cache.length ≤ maxE → (∀ i ∈ keysOf d.expiration, now < i) →
      ttlCache.purgeToCapacity maxE now d = d) ∧
    (∀ (maxE now k0 : Nat) (key0 : K) (d : TtlData K V),
      d.WF → k0 ≤ now → alookup d.expiration k0 = some key0 →
      alookup (ttlCache.purgeToCapacity maxE now d).cache key0 = none) ∧
    (∀ (maxE now i1 i2 : Nat) (key1 key2 : K) (d : TtlData K V),
      d.WF → i1 < i2 →
      alookup d.expiration i1 = some key1 →
      alookup d.expiration i2 = some key2 →
      alookup (ttlCache.purgeToCapacity maxE now d).cache key2 = none →
      alookup (ttlCache.purgeToCapacity maxE now d).cache key1 = none) ∧
    (∀ (c : ttlCache K V) (now : Nat) (key : K) (value : V),
      c.WF → c.maxEntries ≠ 0 → c.size ≤ c.maxEntries →
      (c.add now key value).size ≤ c.maxEntries) := by
  refine ⟨?_, ?_, ?_, ttl_size_bound⟩
  · intro maxE now d hlen hfut
    unfold ttlCache.purgeToCapacity
    cases hks : List.insertionSort (· ≤ ·) (keysOf d.expiration) with
    | nil => rfl
    | cons k ks =>
      have hk : k ∈ keysOf d.expiration := by
        have h1 : k ∈ List.insertionSort (· ≤ ·) (keysOf d.expiration) := by
          rw [hks]
          exact List.mem_cons_self _ _
        exact (List.mem_insertionSort _).mp h1
      simp only [ttlCache.purgeLoop]
      rw [if_pos ⟨hlen, hfut k hk⟩]
  · intro maxE now k0 key0 d hWF hpast hreg
    unfold ttlCache.purgeToCapacity
    have hperm := List.perm_insertionSort (· ≤ ·) (keysOf d.expiration)
    refine purgeLoop_expired maxE now _ hWF
      (hperm.nodup_iff.mpr hWF.2.1) (List.sorted_insertionSort _ _)
      k0 key0 ?_ hpast hreg
    exact (List.mem_insertionSort _).mpr (mem_keysOf_of_alookup hreg)
  · intro maxE now i1 i2 key1 key2 d hWF hlt hreg1 hreg2 hev
    unfold ttlCache.purgeToCapacity at hev ⊢
    have hperm := List.perm_insertionSort (· ≤ ·) (keysOf d.expiration)
    refine purgeLoop_earliest maxE now _ hWF
      (hperm.nodup_iff.mpr hWF.2.1) (List.sorted_insertionSort _ _)
      i1 i2 key1 key2 ?_ ?_ hlt hreg1 hreg2 hev
    · exact (List.mem_insertionSort _).mpr (mem_keysOf_of_alookup hreg1)
    · exact (List.mem_insertionSort _).mpr (mem_keysOf_of_alookup hreg2)

/-- Witness for `ttl_purge_spec`: the four conjuncts at concrete stores —
an untouched within-budget unexpired store; an expired registered entry
evicted under no capacity pressure; earliest-first eviction among two
registered entries; a bounded insert staying within budget. -/
theorem ttl_purge_spec_witness :
    (ttlCache.purgeToCapacity 1 0 (⟨[(1, ⟨1, 10, 5⟩)], [(10, 1)]⟩ :
      TtlData Nat Nat) = ⟨[(1, ⟨1, 10, 5⟩)], [(10, 1)]⟩) ∧
    (alookup (ttlCache.purgeToCapacity 9 10 (⟨[(1, ⟨1, 10, 5⟩)],
      [(10, 1)]⟩ : TtlData Nat Nat)).cache 1 = none) ∧
    (alookup (ttlCache.purgeToCapacity 0 0 (⟨[(1, ⟨1, 5, 0⟩),
      (2, ⟨2, 7, 0⟩)], [(5, 1), (7, 2)]⟩ : TtlData Nat Nat)).cache 1 =
      none) ∧
    ((newTTLCache 1 10 false : ttlCache Nat Nat).add 0 3 30).size ≤ 1 := by
  refine ⟨ttl_purge_spec.1 1 0 _ (by decide) (by decide),
    ttl_purge_spec.2.1 9 10 10 1 _ (by decide) (by decide) (by decide),
    ttl_purge_spec.2.2.1 0 0 5 7 1 2 _ (by decide) (by decide) (by decide)
      (by decide) (by decide),
    ttl_purge_spec.2.2.2 _ 0 3 30 (by decide) (by decide) (by decide)⟩

/-- Claim C4: the TTL index invariant, in both directions.  Every instant
registered in the secondary index points at a live primary entry whose
`expiresAt` equals that instant, and a key has at most one registered
instant; that holds of a fresh engine and is preserved by every
operation.  Conversely, every stored key is registered under exactly its
own `expiresAt` (`fullyIndexed`, with uniqueness of the instant): this
too holds of a fresh engine and is preserved by every operation, where
the operations that write an index slot (`add`, `changeTTL`, and `get`
with refresh-on-read) carry the claim's own proviso that the written
instant is not already registered to a different key.  A refresh
(`changeTTL`) deletes the entry's old instant from the index before the
new one is written, so the old instant is unregistered afterwards.  The
stated exception is real: two inserts during the same instant leave the
earlier key's entry in the primary store while the index slot for that
instant holds only the later key, so `ttlCollisionScenario` is not fully
indexed — the earlier entry is orphaned exactly as the claim says. -/
theorem ttl_index_invariant_spec :
    (∀ (m e : Nat) (u : Bool), (newTTLCache m e u : ttlCache K V).WF) ∧
    (∀ (c : ttlCache K V) (now : Nat) (key : K) (value : V),
      c.WF → (c.add now key value).WF) ∧
    (∀ (c : ttlCache K V) (now : Nat) (key : K),
      c.WF → (c.get now key).2.WF) ∧
    (∀ (c : ttlCache K V) (key : K), c.WF → (c.remove key).WF) ∧
    (∀ (c : ttlCache K V) (now : Nat) (key : K),
      c.WF → (c.changeTTL now key).WF) ∧
    (∀ c : ttlCache K V, c.clear.WF) ∧
    (∀ (d : TtlData K V) (i : Nat) (k : K),
      d.WF → alookup d.expiration i = some k →
      ∃ e, alookup d.cache k = some e ∧ e.ttl = i) ∧
    (∀ (d : TtlData K V) (i j : Nat) (k : K),
      d.WF → alookup d.expiration i = some k →
      alookup d.expiration j = some k → i = j) ∧
    (∀ (c : ttlCache K V) (d d2 : TtlData K V) (now : Nat) (key : K)
      (ee : Entry K V),
      c.data = some d → alookup d.cache key = some ee →
      ee.ttl ≠ now + c.expiry →
      (c.changeTTL now key).data = some d2 →
      alookup d2.expiration ee.ttl = none) ∧
    (ttlCollisionScenario.data =
      some ⟨[(1, ⟨1, 10, 21⟩), (2, ⟨2, 10, 22⟩)], [(10, 2)]⟩) ∧
    (∀ (m e : Nat) (u : Bool),
      (newTTLCache m e u : ttlCache K V).fullyIndexed) ∧
    (∀ (c : ttlCache K V) (now : Nat) (key : K) (value : V),
      c.WF → c.fullyIndexed →
      (∀ (d : TtlData K V) (key1 : K), c.data = some d →
        alookup d.expiration (now + c.expiry) = some key1 → key1 = key) →
      (c.add now key value).fullyIndexed) ∧
    (∀ (c : ttlCache K V) (now : Nat) (key : K),
      c.WF → c.fullyIndexed →
      (∀ (d : TtlData K V) (key1 : K), c.data = some d →
        alookup d.expiration (now + c.expiry) = some key1 → key1 = key) →
      (c.get now key).2.fullyIndexed) ∧
    (∀ (c : ttlCache K V) (key : K),
      c.WF → c.fullyIndexed → (c.remove key).fullyIndexed) ∧
    (∀ (c : ttlCache K V) (now : Nat) (key : K),
      c.WF → c.fullyIndexed →
      (∀ (d : TtlData K V) (key1 : K), c.data = some d →
        alookup d.expiration (now + c.expiry) = some key1 → key1 = key) →
      (c.changeTTL now key).fullyIndexed) ∧
    (∀ c : ttlCache K V, c.clear.fullyIndexed) ∧
    (∀ (d : TtlData K V) (key : K) (e : Entry K V),
      d.WF → d.fullyIndexed → alookup d.cache key = some e →
      alookup d.expiration e.ttl = some key ∧
      (∀ i, alookup d.expiration i = some key → i = e.ttl)) ∧
    ¬ttlCollisionScenario.fullyIndexed := by
  refine ⟨ttlWF_new, ttlWF_add, ttlWF_get, ttlWF_remove, ttlWF_changeTTL,
    ttlWF_clear, ?_, ?_, ?_, by decide, ttlFI_new, ttlFI_add, ttlFI_get,
    ttlFI_remove, ttlFI_changeTTL, ttlFI_clear, ?_, by decide⟩
  · intro d i k hWF hreg
    exact entry_of_reg hWF hreg
  · intro d i j k hWF hregi hregj
    obtain ⟨e1, he1, he1t⟩ := entry_of_reg hWF hregi
    obtain ⟨e2, he2, he2t⟩ := entry_of_reg hWF hregj
    rw [he1] at he2
    cases he2
    omega
  · intro c d d2 now key ee hd hlook hne hd2
    rw [ttlChangeTTL_eq_mem now hd hlook] at hd2
    have hd3 : some (⟨aset d.cache key ⟨ee.key, now + c.expiry, ee.value⟩,
      aset (adel d.expiration ee.ttl) (now + c.expiry) key⟩ : TtlData K V) =
      some d2 := hd2
    cases hd3
    rw [alookup_aset, if_neg (fun hc => hne hc.symm), alookup_adel,
      if_pos rfl]
  · intro d key e hWF hFI hlook
    refine ⟨hFI (key, e) (mem_of_alookup_eq_some hlook), ?_⟩
    intro i hreg
    obtain ⟨e2, he2, he2t⟩ := entry_of_reg hWF hreg
    rw [hlook] at he2
    cases he2
    exact he2t.symm

/-- Witness for `ttl_index_invariant_spec`: invariant preservation at a
concrete insert (for both directions of the invariant); the registered
instant 10 pointing at a live entry with that expiry and being that
entry's unique registration; and the old instant 3 no longer registered
after a concrete refresh to instant 13. -/
theorem ttl_index_invariant_spec_witness :
    ((newTTLCache 2 10 false : ttlCache Nat Nat).add 0 1 5).WF ∧
    (∃ e, alookup ([(1, (⟨1, 10, 5⟩ : Entry Nat Nat))]) 1 = some e ∧
      e.ttl = 10) ∧
    alookup ([(13, 1)] : List (Nat × Nat)) 3 = none ∧
    ((newTTLCache 2 10 false : ttlCache Nat Nat).add 0 1 5).fullyIndexed ∧
    alookup ([(10, 1)] : List (Nat × Nat)) 10 = some 1 := by
  refine ⟨ttl_index_invariant_spec.2.1 _ 0 1 5 (by decide), ?_, ?_, ?_, ?_⟩
  · exact ttl_index_invariant_spec.2.2.2.2.2.2.1
      ⟨[(1, ⟨1, 10, 5⟩)], [(10, 1)]⟩ 10 1 (by decide) (by decide)
  · exact ttl_index_invariant_spec.2.2.2.2.2.2.2.2.1
      (⟨2, false, 9, some ⟨[(1, ⟨1, 3, 5⟩)], [(3, 1)]⟩⟩ : ttlCache Nat Nat)
      ⟨[(1, ⟨1, 3, 5⟩)], [(3, 1)]⟩ ⟨[(1, ⟨1, 13, 5⟩)], [(13, 1)]⟩ 4 1
      ⟨1, 3, 5⟩ rfl (by decide) (by decide) (by decide)
  · refine ttl_index_invariant_spec.2.2.2.2.2.2.2.2.2.2.2.1
      (newTTLCache 2 10 false : ttlCache Nat Nat) 0 1 5 (by decide)
      (by decide) ?_
    intro d key1 hd hreg
    have hd2 : some (⟨[], []⟩ : TtlData Nat Nat) = some d := hd
    cases hd2
    simp [alookup] at hreg
  · exact (ttl_index_invariant_spec.2.2.2.2.2.2.2.2.2.2.2.2.2.2.2.2.1
      ⟨[(1, ⟨1, 10, 5⟩)], [(10, 1)]⟩ 1 ⟨1, 10, 5⟩ (by decide) (by decide)
      (by decide)).1

/-- Claim C6: round trip.  In either engine, `add key value` immediately
followed by `get key` returns the value with found = true, provided the
key survived its own insert's capacity handling (it is still present in
the resulting state) and the read happens no later than the stored expiry
instant. -/
theorem round_trip_spec :
    (∀ (c : lruCache K V) (now now2 : Nat) (key : K) (value : V)
      (d' : LruData K V),
      c.WF → (c.add now key value).data = some d' → key ∈ d'.cache →
      ¬(now + c.expiry < now2) →
      ((c.add now key value).get now2 key).1 = some value) ∧
    (∀ (c : ttlCache K V) (now now2 : Nat) (key : K) (value : V)
      (d' : TtlData K V) (e : Entry K V),
      c.WF → (c.add now key value).data = some d' →
      alookup d'.cache key = some e → ¬(e.ttl < now2) →
      ((c.add now key value).get now2 key).1 = some value) := by
  constructor
  · intro c now now2 key value d' hWF hd' hmem hexp
    have hfind := lru_add_find c now key value hWF hd'
    rw [lruCache.get_eq_fresh now2 hd' hmem hfind hexp]
  · intro c now now2 key value d' e hWF hd' he hexp
    have hE := ttl_add_lookup c now key value hWF hd' he
    cases hupd : (c.add now key value).updateAgeOnGet with
    | true =>
      rw [ttlGet_eq_fresh_update now2 hd' he hexp hupd, hE]
    | false =>
      rw [ttlGet_eq_fresh now2 hd' he hexp hupd, hE]

/-- Witness for `round_trip_spec`: a fresh bounded engine of each kind,
inserting key 1 at instant 0 and reading it back at instant 5 (within the
duration 10). -/
theorem round_trip_spec_witness :
    (((newLRU 3 10 : lruCache Nat Nat).add 0 1 42).get 5 1).1 = some 42 ∧
    (((newTTLCache 3 10 true : ttlCache Nat Nat).add 0 1 42).get 5 1).1 =
      some 42 := by
  refine ⟨round_trip_spec.1 _ 0 5 1 42 ⟨[⟨1, 10, 42⟩], [1]⟩ (by decide)
    (by decide) (by decide) (by decide), ?_⟩
  exact round_trip_spec.2 _ 0 5 1 42 ⟨[(1, ⟨1, 10, 42⟩)], [(10, 1)]⟩
    ⟨1, 10, 42⟩ (by decide) (by decide) (by decide) (by decide)

/-- Claim C7: each facade operation fires its configured hook exactly
once per call when set and not at all when unset, independently of the
engine state and of the lookup result; for `Get` the hook event precedes
the engine delegation in the trace, which is why it fires even when the
key is absent or expired. -/
theorem callback_firing_spec :
    ∀ (S : Type) (E : ICache S K V) (c : Cache S) (now : Nat) (key : K)
      (value : V),
      (Cache.Add E c now key value).2.count FEvent.hookAdd =
        (if c.callbacks.onAddSet then 1 else 0) ∧
      (Cache.Remove E c key).2.count FEvent.hookRemove =
        (if c.callbacks.onRemoveSet then 1 else 0) ∧
      (Cache.Get E c now key).2.2.count FEvent.hookGet =
        (if c.callbacks.onGetSet then 1 else 0) ∧
      (Cache.Get E c now key).2.2 =
        (if c.callbacks.onGetSet then [FEvent.hookGet] else []) ++
          [FEvent.engineGet] ∧
      (Cache.Add E c now key value).2.count FEvent.hookGet = 0 ∧
      (Cache.Add E c now key value).2.count FEvent.hookRemove = 0 ∧
      (Cache.Remove E c key).2.count FEvent.hookAdd = 0 ∧
      (Cache.Get E c now key).2.2.count FEvent.hookAdd = 0 := by
  intro S E c now key value
  unfold Cache.Add Cache.Remove Cache.Get
  refine ⟨?_, ?_, ?_, ?_, ?_, ?_, ?_, ?_⟩ <;>
    first
      | (cases c.callbacks.onAddSet <;> rfl)
      | (cases c.callbacks.onRemoveSet <;> rfl)
      | (cases c.callbacks.onGetSet <;> rfl)

/-- Counterexample to claim C8: with every callback configured, `Clear`
only delegates to the engine — its trace is the lone engine event and
contains no hook invocation, contradicting the claim that a configured
change callback is invoked by `Clear`. -/
theorem clear_no_callback_counterexample :
    (Cache.Clear (lruICache : ICache (lruCache Nat Nat) Nat Nat)
        ⟨newLRU 5 100, ⟨true, true, true⟩⟩).2 = [FEvent.engineClear] ∧
    List.filter FEvent.isHook (Cache.Clear (lruICache :
        ICache (lruCache Nat Nat) Nat Nat)
        ⟨newLRU 5 100, ⟨true, true, true⟩⟩).2 = [] := by
  constructor
  · rfl
  · rfl

/-- Claim C8 (amended): `Add` and `Remove` invoke their configured
callback inside the locked section, but `Clear`, unlike them, performs no
callback invocation at all — it only delegates the clearing to the
engine.  (That the lock is held during these calls is a concurrency
property outside this embedding.) -/
theorem clear_no_callback_spec :
    ∀ (S : Type) (E : ICache S K V) (c : Cache S) (now : Nat) (key : K)
      (value : V),
      (Cache.Clear E c).2 = [FEvent.engineClear] ∧
      List.filter FEvent.isHook (Cache.Clear E c).2 = [] ∧
      (Cache.Add E c now key value).2.count FEvent.hookAdd =
        (if c.callbacks.onAddSet then 1 else 0) ∧
      (Cache.Remove E c key).2.count FEvent.hookRemove =
        (if c.callbacks.onRemoveSet then 1 else 0) := by
  intro S E c now key value
  refine ⟨rfl, rfl, ?_, ?_⟩
  · unfold Cache.Add
    cases c.callbacks.onAddSet <;> rfl
  · unfold Cache.Remove
    cases c.callbacks.onRemoveSet <;> rfl

/-- Claim C9: clearing either engine empties it observably and resets it
to the freshly-constructed behaviour: the size is 0, any lookup misses
and leaves the state unchanged, a removal is a no-op, and a subsequent
insert produces exactly the state the same insert produces on a newly
constructed engine with the same configuration. -/
theorem clear_idempotent_spec :
    (∀ (c : lruCache K V) (now : Nat) (key : K) (value : V),
      c.clear.size = 0 ∧
      (c.clear.get now key).1 = none ∧
      (c.clear.get now key).2 = c.clear ∧
      c.clear.remove key = c.clear ∧
      c.clear.add now key value =
        (newLRU c.maxEntries c.expiry).add now key value) ∧
    (∀ (c : ttlCache K V) (now : Nat) (key : K) (value : V),
      c.clear.size = 0 ∧
      (c.clear.get now key).1 = none ∧
      (c.clear.get now key).2 = c.clear ∧
      c.clear.remove key = c.clear ∧
      c.clear.add now key value =
        (newTTLCache c.maxEntries c.expiry c.updateAgeOnGet).add now key
          value) := by
  constructor
  · intro c now key value
    refine ⟨rfl, ?_, ?_, ?_, ?_⟩
    · rw [lruCache.get_eq_nil now rfl]
    · rw [lruCache.get_eq_nil now rfl]
    · rw [lruCache.remove_eq_nil rfl]
    · rw [lruCache.add_eq_nil now value rfl,
        lruCache.add_eq_new_noevict now value
          (rfl : (newLRU c.maxEntries c.expiry : lruCache K V).data =
            some ⟨[], []⟩)
          (by simp) (by simp only [List.length_nil]; omega)]
      rfl
  · intro c now key value
    refine ⟨rfl, ?_, ?_, ?_, ?_⟩
    · rw [ttlGet_eq_nil now rfl]
    · rw [ttlGet_eq_nil now rfl]
    · rw [ttlRemove_eq_nil rfl]
    · rw [ttlAdd_eq_nil now value rfl,
        ttlAdd_eq_new_nopurge now value
          (rfl : (newTTLCache c.maxEntries c.expiry c.updateAgeOnGet :
            ttlCache K V).data = some ⟨[], []⟩) rfl
          (by simp only [List.length_nil]; omega)]
      rfl

/-- Counterexample to claim C10 as stated: under the substituted default
duration the engine's window is 10 nanoseconds, so an entry inserted at
instant 0 is still found by the strictly later lookup at instant 5 — it
is not "already expired at any strictly later lookup". -/
theorem default_duration_counterexample :
    (((CacheConfig.LRUWithTTLCacheMode ⟨0, 0⟩ : lruCache Nat Nat).add 0 1
      42).get 5 1).1 = some 42 := by
  decide

/-- Claim C10 (amended): with `TTL = 0`, `LRUWithTTLCacheMode` and
`TTLCacheMode` substitute the constant `defaultDuration`, whose value is
`time.Duration(10)` — 10 nanoseconds, not the 10 seconds stated in the
accompanying comment — so the engine they build has a 10-nanosecond
expiry window: every entry inserted under this default is expired at any
lookup more than 10 nanoseconds after insertion (while a lookup within
the window still finds it, per the counterexample). -/
theorem default_duration_spec :
    defaultDuration = 10 ∧
    (∀ m : Nat, (CacheConfig.LRUWithTTLCacheMode ⟨0, m⟩ : lruCache K V) =
      newLRU m defaultDuration) ∧
    (∀ (m : Nat) (u : Bool),
      (CacheConfig.TTLCacheMode ⟨0, m⟩ u : ttlCache K V) =
        newTTLCache m defaultDuration u) ∧
    (∀ (m now now2 : Nat) (key : K) (value : V), now + 10 < now2 →
      (((newLRU m 10 : lruCache K V).add now key value).get now2 key).1 =
        none) ∧
    (∀ (m now now2 : Nat) (u : Bool) (key : K) (value : V),
      now + 10 < now2 →
      (((newTTLCache m 10 u : ttlCache K V).add now key value).get now2
        key).1 = none) := by
  refine ⟨rfl, fun m => rfl, fun m u => rfl, ?_, ?_⟩
  · intro m now now2 key value hlt
    rw [lruCache.add_eq_new_noevict now value rfl (by simp)
      (by show ¬(m ≠ 0 ∧ 0 + 1 > m); omega)]
    rw [lruCache.get_eq_expired now2 rfl (by simp)
      (List.find?_cons_of_pos _ (by simp))
      (by show now + 10 < now2; exact hlt)]
  · intro m now now2 u key value hlt
    rw [ttlAdd_eq_new_nopurge now value
      (rfl : (newTTLCache m 10 u : ttlCache K V).data = some ⟨[], []⟩) rfl
      (by show ¬(m ≠ 0 ∧ 0 + 1 > m); omega)]
    rw [ttlGet_eq_expired now2 rfl
      (by show alookup [(key, (⟨key, now + 10, value⟩ : Entry K V))] key =
        some ⟨key, now + 10, value⟩; rw [alookup_cons, if_pos rfl])
      (by show now + 10 < now2; exact hlt)]

/-- Witness for `default_duration_spec`: a lookup 11 nanoseconds after an
insert under the defaulted duration misses in both engines. -/
theorem default_duration_spec_witness :
    (((newLRU 0 10 : lruCache Nat Nat).add 0 1 42).get 11 1).1 = none ∧
    (((newTTLCache 0 10 false : ttlCache Nat Nat).add 0 1 42).get 11
      1).1 = none := by
  exact ⟨default_duration_spec.2.2.2.1 0 0 11 1 42 (by decide),
    default_duration_spec.2.2.2.2 0 0 11 false 1 42 (by decide)⟩

end CacheDemo
